import Mathlib

set_option maxRecDepth 100000

/-!
# Verification of the DiskANN PQ codec and aligned reader core

Shallow embedding of `src/pq.cpp` and `src/linux_aligned_file_reader.cpp`.

Conventions:
* C++ `float`/`double` arithmetic is idealised as exact rational arithmetic (`ℚ`);
  none of the verified properties depend on rounding.
* Raw arrays become `List`s indexed with `List.getD _ _ 0` (out-of-range reads give
  the default, mirroring the fact that the C++ code never relies on such reads in
  the verified configurations).
* The external binary-blob reader/writer (`diskann::load_bin` / `diskann::save_bin`,
  out of scope per the spec) is modelled at blob granularity: a file is an
  association list from byte offset to typed blob.
* External k-means (`kmeanspp_selecting_pivots` + `run_lloyds`) is a black-box
  oracle parameter.
-/

/-! ## Load-balanced chunk partition (pq.cpp lines 358-399)

The same code appears verbatim in `generate_pq_pivots` (lines 358-399) and
`generate_opq_pivots` (lines 519-560); one embedding covers both. -/

/-- Stand-in for `std::numeric_limits<float>::max()`; only its positivity is relevant
to the selection loop (all `bin_loads` stay `0`). -/
def FLT_MAX : ℚ := 2 ^ 128

/-- State of the bin-filling loop of pq.cpp lines 363-389: per-bin sizes
(`bin_to_dims[b].size()`), the count of bins that reached `high_val`
(`cur_num_high`), and the current threshold (`cur_bin_threshold`). -/
structure PartState where
  sizes : List Nat
  cur_num_high : Nat
  cur_bin_threshold : Nat
deriving DecidableEq, Repr

/-- The inner selection loop of pq.cpp lines 374-382: scan bins `b = 0 .. M-1`,
keeping the first bin whose load beats `cur_best_load` and whose size is below the
threshold.  `bin_loads` is passed explicitly (the source never increments it). -/
def select_bin (bin_loads : List ℚ) (sizes : List Nat) (threshold M : Nat) :
    Nat × ℚ :=
  (List.range M).foldl
    (fun acc b =>
      if bin_loads.getD b 0 < acc.2 ∧ sizes.getD b 0 < threshold then
        (b, bin_loads.getD b 0)
      else acc)
    (M + 1, FLT_MAX)

/-- One iteration of the axis loop of pq.cpp lines 371-389 (axis `d` is only used
for the `push_back`, so it does not appear): pick a bin, grow it, and update
`cur_num_high` / `cur_bin_threshold` when the bin just filled to `high_val`.
`none` models the out-of-bounds write the C++ performs when no bin qualifies. -/
def partition_step (hi lo mnh M : Nat) (st : PartState) : Option PartState :=
  let best := (select_bin (List.replicate M 0) st.sizes st.cur_bin_threshold M).1
  if best < st.sizes.length then
    let sizes' := st.sizes.set best (st.sizes.getD best 0 + 1)
    if sizes'.getD best 0 = hi then
      let cnh := st.cur_num_high + 1
      some { sizes := sizes', cur_num_high := cnh,
             cur_bin_threshold := if cnh = mnh then lo else st.cur_bin_threshold }
    else
      some { sizes := sizes', cur_num_high := st.cur_num_high,
             cur_bin_threshold := st.cur_bin_threshold }
  else none

/-- Run `d` iterations of the axis loop from the initial state (all bins empty,
`cur_num_high = 0`, threshold `high_val`). -/
def partition_run (hi lo mnh M : Nat) : Nat → Option PartState
  | 0 => some ⟨List.replicate M 0, 0, hi⟩
  | d + 1 => (partition_run hi lo mnh M d).bind (partition_step hi lo mnh M)

/-- `chunk_offsets` from the final bin sizes (pq.cpp lines 391-399): start with
`[0]`, append running sums for `b = 1 .. M-1`, and finally append `dim`. -/
def build_chunk_offsets (sizes : List Nat) (M dim : Nat) : List Nat :=
  ((List.range M).foldl
    (fun acc b =>
      if b > 0 then acc ++ [acc.getD (b - 1) 0 + sizes.getD (b - 1) 0] else acc)
    [0]) ++ [dim]

/-- `low_val` of pq.cpp line 360: `floor(dim / num_pq_chunks)` (exact for the
magnitudes in play, so `Nat` division is faithful). -/
def low_val (dim M : Nat) : Nat := dim / M

/-- `high_val` of pq.cpp line 361: `ceil(dim / num_pq_chunks)`. -/
def high_val (dim M : Nat) : Nat := dim / M + (if dim % M = 0 then 0 else 1)

/-- `max_num_high` of pq.cpp line 362: `dim - low_val * num_pq_chunks`. -/
def max_num_high (dim M : Nat) : Nat := dim - low_val dim M * M

/-- The chunk-offset array computed inside `generate_pq_pivots` (pq.cpp lines
358-399) and, by identical code, inside `generate_opq_pivots` (lines 519-560).
`none` models the undefined behaviour of the unguarded `bin_to_dims[cur_best]`
write (never reached when `1 ≤ M ≤ dim`). -/
def generate_pq_pivots_chunk_offsets (dim M : Nat) : Option (List Nat) :=
  (partition_run (high_val dim M) (low_val dim M) (max_num_high dim M) M dim).map
    (fun st => build_chunk_offsets st.sizes M dim)

/-! ### Characterisation of the selection loop -/

/-! ### Closed form of the bin-filling loop -/

/-- Bin sizes after `d` axes have been assigned: the first `max_num_high` bins fill
to `high_val` in index order, then the remaining bins fill to `low_val`. -/
def fill_sizes (hi lo mnh d b : Nat) : Nat :=
  if d ≤ mnh * hi then
    if b < d / hi then hi else if b = d / hi then d % hi else 0
  else
    if b < mnh then hi
    else if b - mnh < (d - mnh * hi) / lo then lo
    else if b - mnh = (d - mnh * hi) / lo then (d - mnh * hi) % lo
    else 0

/-- `cur_num_high` after `d` axes. -/
def fill_cnh (hi mnh d : Nat) : Nat := if mnh = 0 then d / hi else min (d / hi) mnh

/-- `cur_bin_threshold` after `d` axes. -/
def fill_thr (hi lo mnh d : Nat) : Nat := if 0 < mnh ∧ mnh * hi ≤ d then lo else hi

/-- Loop state after `d` axes. -/
def fill_state (hi lo mnh M d : Nat) : PartState :=
  ⟨(List.range M).map (fill_sizes hi lo mnh d), fill_cnh hi mnh d, fill_thr hi lo mnh d⟩

/-- Offsets in closed form: `O i = i * hi` while `i ≤ mnh`, then linear in `lo`. -/
def partition_pref_sum (hi lo mnh i : Nat) : Nat :=
  if i ≤ mnh then i * hi else mnh * hi + (i - mnh) * lo

/-! ## PQ table and query-time distance evaluation (pq.cpp lines 169-292)

The table fields mirror `FixedChunkPQTable`; `rotmat_tr = some _` plays the role
of `use_rotation = true`.  Buffers are caller-supplied lists; `memset` overwrites
the written region and leaves any tail intact, exactly as the C++ `memset` of
`256 * n_chunks * sizeof(float)` (resp. `n_pts * sizeof(float)`) bytes does. -/

structure FixedChunkPQTable where
  ndims : Nat
  n_chunks : Nat
  tables : List ℚ
  tables_tr : List ℚ
  chunk_offsets : List Nat
  centroid : List ℚ
  rotmat_tr : Option (List ℚ)
deriving DecidableEq, Repr

/-- `memset(buf, 0, n * sizeof(float))`. -/
def memset_zero (buf : List ℚ) (n : Nat) : List ℚ :=
  List.replicate n 0 ++ buf.drop n

/-- The dimensions `[chunk_offsets[chunk], chunk_offsets[chunk+1])` of one chunk. -/
def chunk_dims (t : FixedChunkPQTable) (chunk : Nat) : List Nat :=
  List.range' (t.chunk_offsets.getD chunk 0)
    (t.chunk_offsets.getD (chunk + 1) 0 - t.chunk_offsets.getD chunk 0)

/-- `FixedChunkPQTable::populate_chunk_distances` (pq.cpp lines 189-204): zero the
`256 * n_chunks` table, then for every chunk, dimension `j` in the chunk and
center `idx`, accumulate `(tables_tr[256 j + idx] - query[j])²` into cell
`256 * chunk + idx`. -/
def populate_chunk_distances (t : FixedChunkPQTable) (query_vec : List ℚ)
    (dist_vec : List ℚ) : List ℚ :=
  (List.range t.n_chunks).foldl
    (fun dv chunk =>
      (chunk_dims t chunk).foldl
        (fun dv j =>
          (List.range 256).foldl
            (fun dv idx =>
              dv.set (256 * chunk + idx)
                (dv.getD (256 * chunk + idx) 0
                  + (t.tables_tr.getD (256 * j + idx) 0 - query_vec.getD j 0)
                    * (t.tables_tr.getD (256 * j + idx) 0 - query_vec.getD j 0)))
            dv)
        dv)
    (memset_zero dist_vec (256 * t.n_chunks))

/-- `FixedChunkPQTable::l2_distance` (pq.cpp lines 206-216): the asymmetric
distance accumulated over chunks and their dimensions (the sequential float
accumulation is denoted by the nested exact sum). -/
def l2_distance (t : FixedChunkPQTable) (query_vec : List ℚ)
    (base_vec : List Nat) : ℚ :=
  ((List.range t.n_chunks).map
    (fun chunk =>
      ((chunk_dims t chunk).map
        (fun j =>
          (t.tables_tr.getD (256 * j + base_vec.getD chunk 0) 0
              - query_vec.getD j 0)
            * (t.tables_tr.getD (256 * j + base_vec.getD chunk 0) 0
              - query_vec.getD j 0))).sum)).sum

/-- `FixedChunkPQTable::inner_product` (pq.cpp lines 218-232): negated inner
product (max-IP to min-distance conversion). -/
def inner_product (t : FixedChunkPQTable) (query_vec : List ℚ)
    (base_vec : List Nat) : ℚ :=
  -((List.range t.n_chunks).map
    (fun chunk =>
      ((chunk_dims t chunk).map
        (fun j =>
          t.tables_tr.getD (256 * j + base_vec.getD chunk 0) 0
            * query_vec.getD j 0)).sum)).sum

/-- `FixedChunkPQTable::populate_chunk_inner_products` (pq.cpp lines 244-265):
zero the table, then accumulate `-tables_tr[256 j + idx] * query[j]` into cell
`256 * chunk + idx`. -/
def populate_chunk_inner_products (t : FixedChunkPQTable) (query_vec : List ℚ)
    (dist_vec : List ℚ) : List ℚ :=
  (List.range t.n_chunks).foldl
    (fun dv chunk =>
      (chunk_dims t chunk).foldl
        (fun dv j =>
          (List.range 256).foldl
            (fun dv idx =>
              dv.set (256 * chunk + idx)
                (dv.getD (256 * chunk + idx) 0
                  - t.tables_tr.getD (256 * j + idx) 0 * query_vec.getD j 0))
            dv)
        dv)
    (memset_zero dist_vec (256 * t.n_chunks))

/-- `pq_dist_lookup` (pq.cpp lines 274-292): zero `dists_out[0..n_pts)`, then for
every chunk and point, add `pq_dists[256 * chunk + pq_ids[pq_nchunks * idx +
chunk]]` into `dists_out[idx]`.  The chunk stride into `pq_dists` is the
hard-coded `256`, not a caller-chosen `K`. -/
def pq_dist_lookup (pq_ids : List Nat) (n_pts : Nat) (pq_nchunks : Nat)
    (pq_dists : List ℚ) (dists_out : List ℚ) : List ℚ :=
  (List.range pq_nchunks).foldl
    (fun out chunk =>
      (List.range n_pts).foldl
        (fun out idx =>
          out.set idx
            (out.getD idx 0
              + pq_dists.getD
                  (256 * chunk + pq_ids.getD (pq_nchunks * idx + chunk) 0) 0))
        out)
    (memset_zero dists_out n_pts)

/-! ### Buffer-level characterisation of the accumulation loops -/

/-! ### Cell-level specifications of the three table writers -/

/-- A one-chunk, one-dimension table for exercising the distance-table sums. -/
def c3_table : FixedChunkPQTable := ⟨1, 1, [], [5, 7], [0, 1], [0], none⟩

/-- The distance table of the spec's `pq_dist_lookup` scenario laid out with the
code's stride `256`: `chunk_dists[256·c + k] = c·10 + k`. -/
def c4_chunk_dists : List ℚ :=
  (List.range 516).map (fun p => ((p / 256 * 10 + p % 256 : Nat) : ℚ))

/-! ## Pivot container, loader and trainer (pq.cpp lines 37-167 and 299-462)

`diskann::save_bin` / `diskann::load_bin` are external (spec §1); they are
modelled at blob granularity: a file is an association list from byte offset to
typed blob, `save_bin` appends a blob and reports its byte size, `load_bin`
looks the offset up and yields the header and payload. -/

/-- One typed binary blob: `<rows:u32, cols:u32, payload>`. -/
inductive BinBlob where
  | f32blob (rows cols : Nat) (data : List ℚ)
  | u32blob (rows cols : Nat) (data : List Nat)
  | u64blob (rows cols : Nat) (data : List Nat)
deriving DecidableEq, Repr

/-- A binary file at blob granularity. -/
abbrev PQPivotsFile := List (Nat × BinBlob)

/-- Bytes written by `save_bin`: two `u32` header words plus the payload. -/
def blobBytes : BinBlob → Nat
  | .f32blob rows cols _ => 8 + rows * cols * 4
  | .u32blob rows cols _ => 8 + rows * cols * 4
  | .u64blob rows cols _ => 8 + rows * cols * 8

/-- `METADATA_SIZE`, the fixed byte length reserved at the head of the pivot
file.  Modelled from the spec: the constant is defined in a header outside
`src/`; only the fact that writer and readers share one positive value matters
to the claims. -/
def METADATA_SIZE : Nat := 4096

/-- `NUM_PQ_CENTROIDS` (the loader's required center count). -/
def NUM_PQ_CENTROIDS : Nat := 256

def readF32 (f : PQPivotsFile) (off : Nat) : Option (Nat × Nat × List ℚ) :=
  match f.lookup off with
  | some (.f32blob r c d) => some (r, c, d)
  | _ => none

def readU32 (f : PQPivotsFile) (off : Nat) : Option (Nat × Nat × List Nat) :=
  match f.lookup off with
  | some (.u32blob r c d) => some (r, c, d)
  | _ => none

def readU64 (f : PQPivotsFile) (off : Nat) : Option (Nat × Nat × List Nat) :=
  match f.lookup off with
  | some (.u64blob r c d) => some (r, c, d)
  | _ => none

/-- The transpose loop of pq.cpp lines 160-166:
`tables_tr[j * 256 + i] = tables[i * ndims + j]`; cell `p` decomposes as
`p = j * 256 + i` with `i = p % 256`, `j = p / 256`. -/
def transpose_tables (ndims : Nat) (tables : List ℚ) : List ℚ :=
  (List.range (256 * ndims)).map
    (fun p => tables.getD ((p % 256) * ndims + p / 256) 0)

/-- `FixedChunkPQTable::load_pq_centroid_bin` (pq.cpp lines 37-167).
`rot_file` is the content of the sibling `_rotation_matrix.bin` (`none` when that
file does not exist).  `none` results model the thrown `ANNException`s.  The
offsets blob must have 4 or 5 rows; with 5 (legacy) the chunk-offset block is
read from offset entry 3 instead of 2. -/
def load_pq_centroid_bin (f : PQPivotsFile) (rot_file : Option BinBlob)
    (num_chunks : Nat) : Option FixedChunkPQTable :=
  match readU64 f 0 with
  | none => none
  | some (nr, _nc, file_offset_data) =>
    if nr = 4 ∨ nr = 5 then
      let use_old_filetype := nr = 5
      match readF32 f (file_offset_data.getD 0 0) with
      | none => none
      | some (nr2, nc2, tables) =>
        if nr2 = NUM_PQ_CENTROIDS then
          let ndims := nc2
          match readF32 f (file_offset_data.getD 1 0) with
          | none => none
          | some (nr3, nc3, centroid) =>
            if nr3 = ndims ∧ nc3 = 1 then
              let chunk_offsets_index := if use_old_filetype then 3 else 2
              match readU32 f (file_offset_data.getD chunk_offsets_index 0) with
              | none => none
              | some (nr4, nc4, chunk_offsets) =>
                if nc4 = 1 ∧ (nr4 = num_chunks + 1 ∨ num_chunks = 0) then
                  match rot_file with
                  | some (.f32blob nr5 nc5 rotmat_tr) =>
                    if nr5 = ndims ∧ nc5 = ndims then
                      some ⟨ndims, nr4 - 1, tables,
                        transpose_tables ndims tables, chunk_offsets, centroid,
                        some rotmat_tr⟩
                    else none
                  | some _ => none
                  | none =>
                    some ⟨ndims, nr4 - 1, tables,
                      transpose_tables ndims tables, chunk_offsets, centroid,
                      none⟩
                else none
            else none
        else none
    else none

/-- The pivot-loading prologue of `generate_pq_data_from_pivots` (pq.cpp lines
714-782).  Unlike `load_pq_centroid_bin`, line 724 requires exactly 4 offset
entries, so legacy 5-entry files are rejected. -/
def generate_pq_data_from_pivots_load (f : PQPivotsFile)
    (rot_file : Option BinBlob) (num_centers num_pq_chunks dim : Nat)
    (use_opq : Bool) : Option (List ℚ × List ℚ × List Nat × Option (List ℚ)) :=
  match readU64 f 0 with
  | none => none
  | some (nr, _nc, file_offset_data) =>
    if nr = 4 then
      match readF32 f (file_offset_data.getD 0 0) with
      | none => none
      | some (nr1, nc1, full_pivot_data) =>
        if nr1 = num_centers ∧ nc1 = dim then
          match readF32 f (file_offset_data.getD 1 0) with
          | none => none
          | some (nr2, nc2, centroid) =>
            if nr2 = dim ∧ nc2 = 1 then
              match readU32 f (file_offset_data.getD 2 0) with
              | none => none
              | some (nr3, nc3, chunk_offsets) =>
                if nr3 = num_pq_chunks + 1 ∧ nc3 = 1 then
                  if use_opq then
                    match rot_file with
                    | some (.f32blob nr4 nc4 rotmat_tr) =>
                      if nr4 = dim ∧ nc4 = dim then
                        some (full_pivot_data, centroid, chunk_offsets,
                          some rotmat_tr)
                      else none
                    | _ => none
                  else some (full_pivot_data, centroid, chunk_offsets, none)
                else none
            else none
        else none
    else none

/-- The `memcpy` of pq.cpp lines 309-312: a private copy of the first
`num_train * dim` floats of the caller's buffer. -/
def trainer_train_data (passed_train_data : List ℚ) (num_train dim : Nat) :
    List ℚ :=
  passed_train_data.take (num_train * dim)

/-- Column means of the training copy (pq.cpp lines 335-349): zero unless
`make_zero_mean`. -/
def compute_centroid (train_data : List ℚ) (num_train dim : Nat)
    (make_zero_mean : Bool) : List ℚ :=
  if make_zero_mean then
    (List.range dim).map
      (fun d => ((List.range num_train).map
        (fun p => train_data.getD (p * dim + d) 0)).sum / (num_train : ℚ))
  else List.replicate dim 0

/-- The centering loop (pq.cpp lines 351-355): subtract the column mean from
entry `k = p * dim + d` (so column `k % dim`). -/
def center_train_data (train_data : List ℚ) (num_train dim : Nat)
    (make_zero_mean : Bool) : List ℚ :=
  if make_zero_mean then
    (List.range (num_train * dim)).map
      (fun k => train_data.getD k 0
        - (compute_centroid train_data num_train dim make_zero_mean).getD
            (k % dim) 0)
  else train_data

/-- The chunk-wise k-means passes and write-back (pq.cpp lines 401-439).  The
external `kmeanspp_selecting_pivots` + `run_lloyds` pair is the black-box oracle
`km`, mapping `(cur_chunk_size, cur_data)` to the `num_centers × cur_chunk_size`
pivot block.  `new float[num_centers * dim]` is uninitialised in C++; the model
starts from zeros (for `1 ≤ M ≤ dim` every cell is overwritten). -/
def assemble_pivots (km : Nat → List ℚ → List ℚ) (centered : List ℚ)
    (chunk_offsets : List Nat) (num_train dim num_centers num_pq_chunks : Nat) :
    List ℚ :=
  (List.range num_pq_chunks).foldl
    (fun full i =>
      let cur_chunk_size := chunk_offsets.getD (i + 1) 0 - chunk_offsets.getD i 0
      if cur_chunk_size = 0 then full
      else
        let cur_data := (List.range num_train).flatMap
          (fun j => (centered.drop (j * dim + chunk_offsets.getD i 0)).take
            cur_chunk_size)
        let cur_pivot_data := km cur_chunk_size cur_data
        (List.range num_centers).foldl
          (fun full j =>
            (List.range cur_chunk_size).foldl
              (fun full k =>
                full.set (j * dim + chunk_offsets.getD i 0 + k)
                  (cur_pivot_data.getD (j * cur_chunk_size + k) 0))
              full)
          full)
    (List.replicate (num_centers * dim) 0)

/-- Persisting the pivot container (pq.cpp lines 441-456): the pivot, mean and
chunk-offset blobs at the running offsets `cumul_bytes[0..2]`, then the 4-entry
`u64` offset table at byte 0. -/
def write_pivot_file (full_pivot_data centroid : List ℚ)
    (chunk_offsets : List Nat) (num_centers dim : Nat) : PQPivotsFile :=
  let cb0 := METADATA_SIZE
  let cb1 := cb0 + blobBytes (.f32blob num_centers dim full_pivot_data)
  let cb2 := cb1 + blobBytes (.f32blob dim 1 centroid)
  let cb3 := cb2 + blobBytes (.u32blob chunk_offsets.length 1 chunk_offsets)
  [(cb0, .f32blob num_centers dim full_pivot_data),
   (cb1, .f32blob dim 1 centroid),
   (cb2, .u32blob chunk_offsets.length 1 chunk_offsets),
   (0, .u64blob 4 1 [cb0, cb1, cb2, cb3])]

/-- `generate_pq_pivots` (pq.cpp lines 299-462).  `existing` is the file
currently at `pq_pivots_path` (`none` when absent); the result pairs the return
code with the written file (`none` when nothing is written).  Both the
`num_pq_chunks > dim` rejection (line 306) and the existing-file skip (line 330)
return `-1`. -/
def generate_pq_pivots (km : Nat → List ℚ → List ℚ) (passed_train_data : List ℚ)
    (num_train dim num_centers num_pq_chunks : Nat)
    (existing : Option PQPivotsFile) (make_zero_mean : Bool) :
    Int × Option PQPivotsFile :=
  if num_pq_chunks > dim then (-1, none)
  else
    let train_data := trainer_train_data passed_train_data num_train dim
    let skip : Bool :=
      match existing with
      | none => false
      | some f =>
        match f.lookup METADATA_SIZE with
        | some (.f32blob file_num_centers file_dim _) =>
          file_dim == dim && file_num_centers == num_centers
        | _ => false
    if skip then (-1, none)
    else
      let centroid := compute_centroid train_data num_train dim make_zero_mean
      let centered := center_train_data train_data num_train dim make_zero_mean
      match generate_pq_pivots_chunk_offsets dim num_pq_chunks with
      | none => (-1, none)
      | some chunk_offsets =>
        let full_pivot_data := assemble_pivots km centered chunk_offsets
          num_train dim num_centers num_pq_chunks
        (0, some (write_pivot_file full_pivot_data centroid chunk_offsets
          num_centers dim))

/-- The shape of the file `write_pivot_file` produces: three data blobs at
pairwise-distinct positive offsets plus the 4-entry offset table at byte 0. -/
def four_entry_file (a0 a1 a2 a3 K : Nat) (C μ : List ℚ) (O : List Nat)
    (dim : Nat) : PQPivotsFile :=
  [(a0, .f32blob K dim C), (a1, .f32blob dim 1 μ),
   (a2, .u32blob O.length 1 O), (0, .u64blob 4 1 [a0, a1, a2, a3])]

/-- Concrete centroid table: 256 centers over one dimension. -/
def c7_tables : List ℚ := (List.range 256).map (fun i => (i : ℚ))

/-- A concrete well-formed 4-entry pivot file over `c7_tables`. -/
def c7_file : PQPivotsFile := four_entry_file 10 20 30 40 256 c7_tables [0] [0, 1] 1

/-- The table `c7_file` loads to. -/
def c7_table : FixedChunkPQTable :=
  ⟨1, 1, c7_tables, transpose_tables 1 c7_tables, [0, 1], [0], none⟩

/-- A concrete well-formed legacy 5-entry pivot file: the extra intermediate
block lives at offset entry 2, the chunk offsets at entry 3. -/
def c6_file : PQPivotsFile :=
  [(0, .u64blob 5 1 [50, 60, 70, 80, 90]),
   (50, .f32blob 256 1 c7_tables),
   (60, .f32blob 1 1 [0]),
   (70, .f32blob 1 1 [3]),
   (80, .u32blob 2 1 [0, 1])]

/-- The two float buffers a trainer touches: the caller's array and the
trainer's private `train_data` allocation. -/
structure TrainerMem where
  passed_train_data : List ℚ
  train_data : List ℚ
deriving DecidableEq, Repr

/-- The `memcpy` of pq.cpp lines 309-312 (identically lines 474-477 of
`generate_opq_pivots`): the write lands in `train_data` only. -/
def trainer_copy (m : TrainerMem) (num_train dim : Nat) : TrainerMem :=
  ⟨m.passed_train_data, m.passed_train_data.take (num_train * dim)⟩

/-- The copy-verification loop of pq.cpp lines 314-319: the number of positions
`(i, j)` where the copy differs from the source (each would print
"error in copy"). -/
def copy_check_failures (m : TrainerMem) (num_train dim : Nat) : Nat :=
  ((List.range num_train).flatMap
    (fun i => (List.range dim).map (fun j => (i, j)))).countP
    (fun p => decide (¬ m.passed_train_data.getD (p.1 * dim + p.2) 0
      = m.train_data.getD (p.1 * dim + p.2) 0))

/-- The centering writes (pq.cpp lines 335-356): they target `train_data` and
the separate `centroid` allocation only. -/
def trainer_center (m : TrainerMem) (num_train dim : Nat) (mzm : Bool) :
    TrainerMem :=
  ⟨m.passed_train_data, center_train_data m.train_data num_train dim mzm⟩

/-- All writes of `generate_pq_pivots` that involve the training data
(pq.cpp lines 309-356); every later phase reads `train_data` only. -/
def generate_pq_pivots_mem (m : TrainerMem) (num_train dim : Nat) (mzm : Bool) :
    TrainerMem :=
  trainer_center (trainer_copy m num_train dim) num_train dim mzm

/-- The same copy-and-center phases of `generate_opq_pivots` (pq.cpp lines
474-510); the rotation products live in further private buffers. -/
def generate_opq_pivots_mem (m : TrainerMem) (num_train dim : Nat)
    (mzm : Bool) : TrainerMem :=
  trainer_center (trainer_copy m num_train dim) num_train dim mzm

/-! ## Aligned reader (linux_aligned_file_reader.cpp, execute_io lines 18-123)

`io_submit` / `io_getevents` are kernel primitives; their successive return
values are an oracle `List Int` consumed one response per call. -/

/-- `MAX_EVENTS` (linux_aligned_file_reader.cpp line 11). -/
def MAX_EVENTS : Nat := 1024

/-- The `EINTR` errno value. -/
def EINTR : Int := 4

/-- `ROUND_UP(x, y)`: the least multiple of `y` that is at least `x`.
Modelled from the spec: the macro lives in a utility header outside `src/`. -/
def ROUND_UP (x y : Nat) : Nat := (x + y - 1) / y * y

/-- `n_iters` (line 31): number of windows for a batch of `n` requests. -/
def io_n_iters (n : Nat) : Nat := ROUND_UP n MAX_EVENTS / MAX_EVENTS

/-- `n_ops` for window `it` (line 34). -/
def io_window_ops (n it : Nat) : Nat := min (n - it * MAX_EVENTS) MAX_EVENTS

/-- Outcome of one submission (or reaping) loop. -/
inductive SubmitOutcome where
  | done (rest : List Int)
  | fatal_errno (e : Int)
  | fatal_retries
  | out_of_responses
deriving DecidableEq, Repr

/-- The `io_submit` loop of `execute_io` (lines 52-83).  State:
`num_submitted` requests already accepted and `submit_retry` attempts charged
against the budget; each `io_submit` call consumes one oracle response and is
recorded in the trace as `(n_ops - num_submitted, num_submitted)` — the count
requested and the descriptor offset.  A negative response `r` with
`-r = EINTR` repeats the call without touching any counter; any other negative
response throws (`fatal_errno`); a short (or zero) total increments
`submit_retry` and throws once it exceeds `n_retries`. -/
def submit_window (n_retries n_ops num_submitted submit_retry : Nat) :
    List Int → SubmitOutcome × List (Nat × Nat)
  | [] => (.out_of_responses, [])
  | r :: rest =>
    if r < 0 then
      if ¬ -r = EINTR then
        (.fatal_errno (-r), [(n_ops - num_submitted, num_submitted)])
      else
        let p := submit_window n_retries n_ops num_submitted submit_retry rest
        (p.1, (n_ops - num_submitted, num_submitted) :: p.2)
    else
      let ns := num_submitted + r.toNat
      if ns < n_ops then
        if submit_retry + 1 ≤ n_retries then
          let p := submit_window n_retries n_ops ns (submit_retry + 1) rest
          (p.1, (n_ops - num_submitted, num_submitted) :: p.2)
        else (.fatal_retries, [(n_ops - num_submitted, num_submitted)])
      else (.done rest, [(n_ops - num_submitted, num_submitted)])

/-- The mirrored `io_getevents` loop (lines 85-113): identical protocol with
`num_read` / `read_retry` in place of the submission counters. -/
def getevents_window (n_retries n_ops num_read read_retry : Nat) :
    List Int → SubmitOutcome × List (Nat × Nat)
  | [] => (.out_of_responses, [])
  | r :: rest =>
    if r < 0 then
      if ¬ -r = EINTR then
        (.fatal_errno (-r), [(n_ops - num_read, num_read)])
      else
        let p := getevents_window n_retries n_ops num_read read_retry rest
        (p.1, (n_ops - num_read, num_read) :: p.2)
    else
      let nr := num_read + r.toNat
      if nr < n_ops then
        if read_retry + 1 ≤ n_retries then
          let p := getevents_window n_retries n_ops nr (read_retry + 1) rest
          (p.1, (n_ops - num_read, num_read) :: p.2)
        else (.fatal_retries, [(n_ops - num_read, num_read)])
      else (.done rest, [(n_ops - num_read, num_read)])

/-- While-loop entry (lines 55 and 87): with `n_ops = 0` neither loop runs. -/
def submit_loop (n_retries n_ops : Nat) (oracle : List Int) :
    SubmitOutcome × List (Nat × Nat) :=
  if 0 < n_ops then submit_window n_retries n_ops 0 0 oracle
  else (.done oracle, [])

def getevents_loop (n_retries n_ops : Nat) (oracle : List Int) :
    SubmitOutcome × List (Nat × Nat) :=
  if 0 < n_ops then getevents_window n_retries n_ops 0 0 oracle
  else (.done oracle, [])

/-- `execute_io` (lines 18-123): the windows `0, …, n_iters - 1` in order; in
each window the submission loop then the reaping loop, threading the oracle. -/
def execute_io (n_retries n : Nat) (oracle : List Int) : SubmitOutcome :=
  (List.range (io_n_iters n)).foldl
    (fun acc it =>
      match acc with
      | .done rest =>
        match submit_loop n_retries (io_window_ops n it) rest with
        | (.done rest2, _) => (getevents_loop n_retries (io_window_ops n it) rest2).1
        | (o, _) => o
      | o => o)
    (.done oracle)

example : generate_pq_pivots_chunk_offsets 10 3 = some [0, 4, 7, 10] := by decide

example : generate_pq_pivots_chunk_offsets 8 4 = some [0, 2, 4, 6, 8] := by decide

example : generate_pq_pivots_chunk_offsets 5 5 = some [0, 1, 2, 3, 4, 5] := by decide

example : generate_pq_pivots_chunk_offsets 7 1 = some [0, 7] := by decide

theorem replicate_zero_getD (M b : Nat) : (List.replicate M (0 : ℚ)).getD b 0 = 0 := by
  rcases lt_or_le b M with h | h
  · simp [List.getD_eq_getElem?_getD, List.getElem?_replicate, h]
  · exact List.getD_eq_default _ _ (by simpa using h)

/-- Once a bin has been picked (`cur_best_load = 0`), later bins never beat it. -/
theorem select_fold_stuck (sizes : List Nat) (thr M : Nat) (l : List Nat) (b0 : Nat) :
    l.foldl
      (fun acc b =>
        if (List.replicate M (0 : ℚ)).getD b 0 < acc.2 ∧ sizes.getD b 0 < thr then
          (b, (List.replicate M (0 : ℚ)).getD b 0)
        else acc)
      (b0, (0 : ℚ)) = (b0, 0) := by
  induction l with
  | nil => rfl
  | cons b l ih =>
    simp only [List.foldl_cons]
    split
    · next hc => exact absurd (replicate_zero_getD M b ▸ hc.1) (lt_irrefl 0)
    · exact ih

/-- Before any bin qualifies, the accumulator stays at its initial value. -/
theorem select_fold_none (sizes : List Nat) (thr M : Nat) (l : List Nat)
    (h : ∀ b ∈ l, ¬ sizes.getD b 0 < thr) :
    l.foldl
      (fun acc b =>
        if (List.replicate M (0 : ℚ)).getD b 0 < acc.2 ∧ sizes.getD b 0 < thr then
          (b, (List.replicate M (0 : ℚ)).getD b 0)
        else acc)
      (M + 1, FLT_MAX) = (M + 1, FLT_MAX) := by
  induction l with
  | nil => rfl
  | cons b l ih =>
    have hb := h b (by simp)
    simp only [List.foldl_cons]
    split
    · next hc => exact absurd hc.2 hb
    · exact ih fun b hb' => h b (by simp [hb'])

/-- The selection loop returns the first qualifying bin (with load `0`). -/
theorem select_fold_found (sizes : List Nat) (thr M : Nat) (l₁ l₂ : List Nat) (b0 : Nat)
    (h₁ : ∀ b ∈ l₁, ¬ sizes.getD b 0 < thr) (h0 : sizes.getD b0 0 < thr) :
    (l₁ ++ b0 :: l₂).foldl
      (fun acc b =>
        if (List.replicate M (0 : ℚ)).getD b 0 < acc.2 ∧ sizes.getD b 0 < thr then
          (b, (List.replicate M (0 : ℚ)).getD b 0)
        else acc)
      (M + 1, FLT_MAX) = (b0, 0) := by
  have hpos : (0 : ℚ) < FLT_MAX := by norm_num [FLT_MAX]
  rw [List.foldl_append, select_fold_none sizes thr M l₁ h₁]
  simp only [List.foldl_cons]
  split
  · rw [replicate_zero_getD]
    exact select_fold_stuck sizes thr M l₂ b0
  · next hc =>
    exact absurd ⟨by rw [replicate_zero_getD]; exact hpos, h0⟩ hc

theorem select_bin_eq_found (sizes : List Nat) (thr M b0 : Nat) (hb0 : b0 < M)
    (hfirst : ∀ b < b0, ¬ sizes.getD b 0 < thr) (h0 : sizes.getD b0 0 < thr) :
    select_bin (List.replicate M 0) sizes thr M = (b0, 0) := by
  obtain ⟨k, rfl⟩ : ∃ k, M = b0 + (k + 1) := ⟨M - b0 - 1, by omega⟩
  have hsplit : List.range (b0 + (k + 1)) =
      List.range' 0 b0 ++ b0 :: List.range' (b0 + 1) k := by
    rw [List.range_eq_range']
    have h1 := List.range'_append 0 b0 (k + 1) 1
    simp only [Nat.one_mul, Nat.zero_add] at h1
    rw [Nat.add_comm b0 (k + 1), ← h1, List.range'_succ]
  rw [select_bin, hsplit]
  refine select_fold_found sizes thr _ _ _ b0 (fun b hb => hfirst b ?_) h0
  obtain ⟨i, hi, rfl⟩ := List.mem_range'.1 hb
  omega

theorem getD_map_range {α : Type} (f : Nat → α) (M b : Nat) (d : α) :
    ((List.range M).map f).getD b d = if b < M then f b else d := by
  rcases lt_or_le b M with h | h
  · rw [List.getD_eq_getElem?_getD, List.getElem?_map, List.getElem?_range h]
    simp [h]
  · rw [if_neg (by omega), List.getD_eq_default]
    simp [h]

theorem set_map_range_eq (f g : Nat → Nat) (M b0 v : Nat) (hb0 : b0 < M)
    (hv : g b0 = v) (hagree : ∀ b < M, b ≠ b0 → f b = g b) :
    ((List.range M).map f).set b0 v = (List.range M).map g := by
  apply List.ext_getElem?
  intro n
  rw [List.getElem?_set]
  rcases eq_or_ne b0 n with rfl | hne
  · rw [if_pos rfl, if_pos (by simpa using hb0), List.getElem?_map,
      List.getElem?_range hb0]
    simp [hv]
  · rw [if_neg hne]
    rcases lt_or_le n M with hn | hn
    · rw [List.getElem?_map, List.getElem?_map, List.getElem?_range hn]
      simp [hagree n hn (Ne.symm hne)]
    · rw [List.getElem?_eq_none (by simpa using hn),
        List.getElem?_eq_none (by simpa using hn)]

/-- In the second phase the `fill_sizes` formula takes its `else` shape (this also
covers the boundary `d = mnh * hi`, where the two shapes agree). -/
theorem fill_sizes_phase2 (hi lo mnh d b : Nat) (hhi : 0 < hi) (h : mnh * hi ≤ d) :
    fill_sizes hi lo mnh d b =
      if b < mnh then hi
      else if b - mnh < (d - mnh * hi) / lo then lo
      else if b - mnh = (d - mnh * hi) / lo then (d - mnh * hi) % lo
      else 0 := by
  unfold fill_sizes
  rcases Nat.lt_or_ge (mnh * hi) d with hlt | hge
  · rw [if_neg (by omega)]
  · have hd : d = mnh * hi := le_antisymm hge h
    subst hd
    rw [if_pos le_rfl, Nat.mul_div_cancel _ hhi, Nat.mul_mod_left, Nat.sub_self,
      Nat.zero_div, Nat.zero_mod]
    split_ifs <;> omega

theorem map_range_eq_replicate {v : Nat} (f : Nat → Nat) (M : Nat)
    (h : ∀ b < M, f b = v) : (List.range M).map f = List.replicate M v := by
  apply List.ext_getElem?
  intro n
  rcases lt_or_le n M with hn | hn
  · rw [List.getElem?_map, List.getElem?_range hn, List.getElem?_replicate, if_pos hn]
    simp [h n hn]
  · rw [List.getElem?_eq_none (by simpa using hn),
      List.getElem?_eq_none (by simpa using hn)]

/-- One step of the loop in the first phase (`d < mnh * hi`): the current bin is
`d / hi`, and the threshold stays `hi` unless this step completes the
`mnh`-th high bin. -/
theorem partition_step_fill_phase1 (hi lo mnh M d : Nat)
    (hhi : 0 < hi) (hmnhM : mnh ≤ M) (hph : d < mnh * hi) :
    partition_step hi lo mnh M (fill_state hi lo mnh M d) =
      some (fill_state hi lo mnh M (d + 1)) := by
  obtain ⟨q, r, hdeq, hrlt⟩ : ∃ q r, d = hi * q + r ∧ r < hi :=
    ⟨d / hi, d % hi, by rw [Nat.div_add_mod], Nat.mod_lt _ hhi⟩
  have hdiv : d / hi = q := by
    rw [hdeq, Nat.mul_add_div hhi, Nat.div_eq_of_lt hrlt, Nat.add_zero]
  have hmod : d % hi = r := by
    rw [hdeq, Nat.mul_add_mod, Nat.mod_eq_of_lt hrlt]
  have hqmnh : q < mnh := by
    have h3 : hi * q < hi * mnh := by
      calc hi * q ≤ d := by omega
        _ < mnh * hi := hph
        _ = hi * mnh := Nat.mul_comm _ _
    exact Nat.lt_of_mul_lt_mul_left h3
  have hqM : q < M := lt_of_lt_of_le hqmnh hmnhM
  have hfd : ∀ b, fill_sizes hi lo mnh d b
      = if b < q then hi else if b = q then r else 0 := by
    intro b
    unfold fill_sizes
    rw [if_pos (Nat.le_of_lt hph), hdiv, hmod]
  have hgetD : ∀ b, ((List.range M).map (fill_sizes hi lo mnh d)).getD b 0
      = if b < M then fill_sizes hi lo mnh d b else 0 := fun b => getD_map_range _ M b 0
  have hthr : fill_thr hi lo mnh d = hi := by
    unfold fill_thr
    rw [if_neg]
    rintro ⟨-, hc⟩
    exact Nat.lt_irrefl _ (lt_of_le_of_lt hc hph)
  have hsel : select_bin (List.replicate M 0)
      ((List.range M).map (fill_sizes hi lo mnh d)) hi M = (q, 0) := by
    apply select_bin_eq_found _ _ _ _ hqM
    · intro b hbq
      rw [hgetD, if_pos (lt_trans hbq hqM), hfd, if_pos hbq]
      exact lt_irrefl hi
    · rw [hgetD, if_pos hqM, hfd, if_neg (lt_irrefl q), if_pos rfl]
      exact hrlt
  have hval : ((List.range M).map (fill_sizes hi lo mnh d)).getD q 0 = r := by
    rw [hgetD, if_pos hqM, hfd, if_neg (lt_irrefl q), if_pos rfl]
  have hlen : ((List.range M).map (fill_sizes hi lo mnh d)).length = M := by
    rw [List.length_map, List.length_range]
  have hsetD : (((List.range M).map (fill_sizes hi lo mnh d)).set q (r + 1)).getD q 0
      = r + 1 := by
    rw [List.getD_eq_getElem?_getD, List.getElem?_set, if_pos rfl,
      if_pos (by rw [hlen]; exact hqM)]
    rfl
  have hcnh : fill_cnh hi mnh d = q := by
    unfold fill_cnh
    rw [hdiv, if_neg (by omega), Nat.min_eq_left (Nat.le_of_lt hqmnh)]
  show partition_step hi lo mnh M
      ⟨(List.range M).map (fill_sizes hi lo mnh d), fill_cnh hi mnh d, fill_thr hi lo mnh d⟩
    = some (fill_state hi lo mnh M (d + 1))
  simp only [partition_step, hthr, hsel, hval, hlen, hcnh]
  rw [if_pos hqM, hsetD]
  rcases eq_or_lt_of_le (Nat.succ_le_of_lt hrlt) with hcase | hcase
  · -- the bin completes: `r + 1 = hi`
    have hd1eq : d + 1 = hi * (q + 1) := by rw [Nat.mul_succ]; omega
    have hdiv1 : (d + 1) / hi = q + 1 := by
      rw [hd1eq, Nat.mul_div_cancel_left _ hhi]
    have hmod1 : (d + 1) % hi = 0 := by rw [hd1eq, Nat.mul_mod_right]
    have hd1le : d + 1 ≤ mnh * hi := hph
    have hfd1 : ∀ b, fill_sizes hi lo mnh (d + 1) b
        = if b < q + 1 then hi else if b = q + 1 then 0 else 0 := by
      intro b
      unfold fill_sizes
      rw [if_pos hd1le, hdiv1, hmod1]
    have hsizes : ((List.range M).map (fill_sizes hi lo mnh d)).set q (r + 1)
        = (List.range M).map (fill_sizes hi lo mnh (d + 1)) := by
      apply set_map_range_eq _ _ _ _ _ hqM
      · rw [hfd1, if_pos (Nat.lt_succ_self q)]
        omega
      · intro b hbM hbq
        rw [hfd, hfd1]
        split_ifs <;> omega
    have hcnh1 : fill_cnh hi mnh (d + 1) = q + 1 := by
      unfold fill_cnh
      rw [hdiv1, if_neg (by omega), Nat.min_eq_left (Nat.succ_le_of_lt hqmnh)]
    have hthr1 : (if q + 1 = mnh then lo else hi) = fill_thr hi lo mnh (d + 1) := by
      rcases eq_or_ne (q + 1) mnh with heq | hne
      · rw [if_pos heq]
        unfold fill_thr
        rw [if_pos ⟨by omega, le_of_eq (by rw [← heq, Nat.mul_comm, ← hd1eq])⟩]
      · rw [if_neg hne]
        unfold fill_thr
        rw [if_neg]
        rintro ⟨-, hc⟩
        rw [hd1eq, Nat.mul_comm hi (q + 1)] at hc
        have := Nat.le_of_mul_le_mul_right hc hhi
        omega
    rw [if_pos hcase, hsizes]
    simp only [fill_state]
    rw [hcnh1, ← hthr1]
  · -- the bin does not complete: `r + 1 < hi`
    have hdiv1 : (d + 1) / hi = q := by
      rw [show d + 1 = hi * q + (r + 1) by omega, Nat.mul_add_div hhi,
        Nat.div_eq_of_lt hcase, Nat.add_zero]
    have hmod1 : (d + 1) % hi = r + 1 := by
      rw [show d + 1 = hi * q + (r + 1) by omega, Nat.mul_add_mod,
        Nat.mod_eq_of_lt hcase]
    have hd1le : d + 1 ≤ mnh * hi := hph
    have hfd1 : ∀ b, fill_sizes hi lo mnh (d + 1) b
        = if b < q then hi else if b = q then r + 1 else 0 := by
      intro b
      unfold fill_sizes
      rw [if_pos hd1le, hdiv1, hmod1]
    have hsizes : ((List.range M).map (fill_sizes hi lo mnh d)).set q (r + 1)
        = (List.range M).map (fill_sizes hi lo mnh (d + 1)) := by
      apply set_map_range_eq _ _ _ _ _ hqM
      · rw [hfd1, if_neg (lt_irrefl q), if_pos rfl]
      · intro b hbM hbq
        rw [hfd, hfd1]
        split_ifs <;> omega
    have hcnh1 : fill_cnh hi mnh (d + 1) = q := by
      unfold fill_cnh
      rw [hdiv1, if_neg (by omega), Nat.min_eq_left (Nat.le_of_lt hqmnh)]
    have hthr1 : hi = fill_thr hi lo mnh (d + 1) := by
      unfold fill_thr
      rw [if_neg]
      rintro ⟨-, hc⟩
      have h1 : d + 1 < hi * (q + 1) := by rw [Nat.mul_succ]; omega
      have h2 : hi * (q + 1) ≤ hi * mnh :=
        Nat.mul_le_mul_left hi (Nat.succ_le_of_lt hqmnh)
      have h3 : d + 1 < mnh * hi := by
        rw [Nat.mul_comm]
        exact lt_of_lt_of_le h1 h2
      omega
    rw [if_neg (by omega), hsizes]
    simp only [fill_state]
    rw [hcnh1, ← hthr1]

/-- One step of the loop in the second phase (`mnh * hi ≤ d`): the first `mnh` bins
hold `hi` axes, the current bin is `mnh + (d - mnh * hi) / lo`, and the threshold
stays put. -/
theorem partition_step_fill_phase2 (hi lo mnh M d : Nat)
    (hlo : 0 < lo) (hlohi : lo ≤ hi)
    (hmnh0 : mnh = 0 → lo = hi) (hmnhpos : 0 < mnh → lo < hi)
    (hmnhM : mnh ≤ M)
    (hph : mnh * hi ≤ d) (hd : d < mnh * hi + (M - mnh) * lo) :
    partition_step hi lo mnh M (fill_state hi lo mnh M d) =
      some (fill_state hi lo mnh M (d + 1)) := by
  have hhi : 0 < hi := lt_of_lt_of_le hlo hlohi
  obtain ⟨c, r, heeq, hrlt⟩ : ∃ c r, d - mnh * hi = lo * c + r ∧ r < lo :=
    ⟨(d - mnh * hi) / lo, (d - mnh * hi) % lo, by rw [Nat.div_add_mod],
      Nat.mod_lt _ hlo⟩
  have hediv : (d - mnh * hi) / lo = c := by
    rw [heeq, Nat.mul_add_div hlo, Nat.div_eq_of_lt hrlt, Nat.add_zero]
  have hemod : (d - mnh * hi) % lo = r := by
    rw [heeq, Nat.mul_add_mod, Nat.mod_eq_of_lt hrlt]
  have hcM : c < M - mnh := by
    have h1 : lo * c < lo * (M - mnh) := by
      calc lo * c ≤ d - mnh * hi := by omega
        _ < (M - mnh) * lo := by omega
        _ = lo * (M - mnh) := Nat.mul_comm _ _
    exact Nat.lt_of_mul_lt_mul_left h1
  have hb0M : mnh + c < M := by omega
  have hfd : ∀ b, fill_sizes hi lo mnh d b
      = if b < mnh then hi else if b - mnh < c then lo
        else if b - mnh = c then r else 0 := by
    intro b
    rw [fill_sizes_phase2 _ _ _ _ _ hhi hph, hediv, hemod]
  have hgetD : ∀ b, ((List.range M).map (fill_sizes hi lo mnh d)).getD b 0
      = if b < M then fill_sizes hi lo mnh d b else 0 :=
    fun b => getD_map_range _ M b 0
  have hthr : fill_thr hi lo mnh d = lo := by
    unfold fill_thr
    rcases Nat.eq_zero_or_pos mnh with hz | hpos
    · rw [if_neg (by omega), hmnh0 hz]
    · rw [if_pos ⟨hpos, hph⟩]
  have hthr1 : fill_thr hi lo mnh (d + 1) = lo := by
    unfold fill_thr
    rcases Nat.eq_zero_or_pos mnh with hz | hpos
    · rw [if_neg (by omega), hmnh0 hz]
    · rw [if_pos ⟨hpos, by omega⟩]
  have hval : ((List.range M).map (fill_sizes hi lo mnh d)).getD (mnh + c) 0 = r := by
    rw [hgetD, if_pos hb0M, hfd, if_neg (by omega), if_neg (by omega),
      if_pos (by omega)]
  have hsel : select_bin (List.replicate M 0)
      ((List.range M).map (fill_sizes hi lo mnh d)) lo M = (mnh + c, 0) := by
    apply select_bin_eq_found _ _ _ _ hb0M
    · intro b hb
      rw [hgetD, if_pos (by omega), hfd]
      rcases lt_or_le b mnh with h1 | h1
      · rw [if_pos h1]
        omega
      · rw [if_neg (by omega), if_pos (by omega)]
        exact lt_irrefl lo
    · rw [hval]
      exact hrlt
  have hlen : ((List.range M).map (fill_sizes hi lo mnh d)).length = M := by
    rw [List.length_map, List.length_range]
  have hsetD : (((List.range M).map (fill_sizes hi lo mnh d)).set (mnh + c)
      (r + 1)).getD (mnh + c) 0 = r + 1 := by
    rw [List.getD_eq_getElem?_getD, List.getElem?_set, if_pos rfl,
      if_pos (by rw [hlen]; exact hb0M)]
    rfl
  have hph1 : mnh * hi ≤ d + 1 := by omega
  show partition_step hi lo mnh M
      ⟨(List.range M).map (fill_sizes hi lo mnh d), fill_cnh hi mnh d,
        fill_thr hi lo mnh d⟩
    = some (fill_state hi lo mnh M (d + 1))
  simp only [partition_step, hthr, hsel, hval, hlen]
  rw [if_pos hb0M, hsetD]
  rcases eq_or_lt_of_le (Nat.succ_le_of_lt hrlt) with hcase | hcase
  · -- the bin fills to `lo`
    have heeq1 : d + 1 - mnh * hi = lo * (c + 1) := by rw [Nat.mul_succ]; omega
    have hediv1 : (d + 1 - mnh * hi) / lo = c + 1 := by
      rw [heeq1, Nat.mul_div_cancel_left _ hlo]
    have hemod1 : (d + 1 - mnh * hi) % lo = 0 := by rw [heeq1, Nat.mul_mod_right]
    have hfd1 : ∀ b, fill_sizes hi lo mnh (d + 1) b
        = if b < mnh then hi else if b - mnh < c + 1 then lo
          else if b - mnh = c + 1 then 0 else 0 := by
      intro b
      rw [fill_sizes_phase2 _ _ _ _ _ hhi hph1, hediv1, hemod1]
    have hsizes : ((List.range M).map (fill_sizes hi lo mnh d)).set (mnh + c) (r + 1)
        = (List.range M).map (fill_sizes hi lo mnh (d + 1)) := by
      apply set_map_range_eq _ _ _ _ _ hb0M
      · rw [hfd1, if_neg (by omega), if_pos (by omega)]
        omega
      · intro b hbM hbq
        rw [hfd, hfd1]
        split_ifs <;> omega
    rcases Nat.eq_zero_or_pos mnh with hz | hpos
    · -- `mnh = 0`: `lo = hi`, so the bin registers as a completed high bin
      have hlh := hmnh0 hz
      subst hlh
      subst hz
      have hdc : d = lo * c + r := by omega
      have hcnh : fill_cnh lo 0 d = c := by
        unfold fill_cnh
        rw [if_pos rfl, hdc, Nat.mul_add_div hlo, Nat.div_eq_of_lt hrlt,
          Nat.add_zero]
      have hcnh1 : fill_cnh lo 0 (d + 1) = c + 1 := by
        unfold fill_cnh
        rw [if_pos rfl, show d + 1 = lo * (c + 1) by rw [Nat.mul_succ]; omega,
          Nat.mul_div_cancel_left _ hlo]
      rw [if_pos (by omega), hsizes]
      simp only [fill_state]
      rw [hcnh, hcnh1, hthr1, if_neg (by omega)]
    · -- `mnh > 0`: `lo < hi`, no completion
      have hlh := hmnhpos hpos
      have hcnh : fill_cnh hi mnh d = mnh := by
        unfold fill_cnh
        rw [if_neg (by omega),
          Nat.min_eq_right ((Nat.le_div_iff_mul_le hhi).2 hph)]
      have hcnh1 : fill_cnh hi mnh (d + 1) = mnh := by
        unfold fill_cnh
        rw [if_neg (by omega),
          Nat.min_eq_right ((Nat.le_div_iff_mul_le hhi).2 hph1)]
      rw [if_neg (by omega), hsizes]
      simp only [fill_state]
      rw [hcnh, hcnh1, hthr1]
  · -- the bin stays below `lo`
    have heeq1 : d + 1 - mnh * hi = lo * c + (r + 1) := by omega
    have hediv1 : (d + 1 - mnh * hi) / lo = c := by
      rw [heeq1, Nat.mul_add_div hlo, Nat.div_eq_of_lt hcase, Nat.add_zero]
    have hemod1 : (d + 1 - mnh * hi) % lo = r + 1 := by
      rw [heeq1, Nat.mul_add_mod, Nat.mod_eq_of_lt hcase]
    have hfd1 : ∀ b, fill_sizes hi lo mnh (d + 1) b
        = if b < mnh then hi else if b - mnh < c then lo
          else if b - mnh = c then r + 1 else 0 := by
      intro b
      rw [fill_sizes_phase2 _ _ _ _ _ hhi hph1, hediv1, hemod1]
    have hsizes : ((List.range M).map (fill_sizes hi lo mnh d)).set (mnh + c) (r + 1)
        = (List.range M).map (fill_sizes hi lo mnh (d + 1)) := by
      apply set_map_range_eq _ _ _ _ _ hb0M
      · rw [hfd1, if_neg (by omega), if_neg (by omega), if_pos (by omega)]
      · intro b hbM hbq
        rw [hfd, hfd1]
        split_ifs <;> omega
    have hnothi : ¬ r + 1 = hi := by
      rcases Nat.eq_zero_or_pos mnh with hz | hpos
      · have := hmnh0 hz
        omega
      · have := hmnhpos hpos
        omega
    have hcnh_eq : fill_cnh hi mnh d = fill_cnh hi mnh (d + 1) := by
      unfold fill_cnh
      rcases Nat.eq_zero_or_pos mnh with hz | hpos
      · subst hz
        have hlh := hmnh0 rfl
        subst hlh
        rw [if_pos rfl, if_pos rfl]
        have h1 : d / lo = c := by
          rw [show d = lo * c + r by omega, Nat.mul_add_div hlo,
            Nat.div_eq_of_lt hrlt, Nat.add_zero]
        have h2 : (d + 1) / lo = c := by
          rw [show d + 1 = lo * c + (r + 1) by omega, Nat.mul_add_div hlo,
            Nat.div_eq_of_lt hcase, Nat.add_zero]
        rw [h1, h2]
      · rw [if_neg (by omega), if_neg (by omega),
          Nat.min_eq_right ((Nat.le_div_iff_mul_le hhi).2 hph),
          Nat.min_eq_right ((Nat.le_div_iff_mul_le hhi).2 hph1)]
    rw [if_neg hnothi, hsizes]
    simp only [fill_state]
    rw [hcnh_eq, hthr1]

/-- The bin-filling loop tracks the closed form for every prefix of the axis loop. -/
theorem partition_run_fill (hi lo mnh M : Nat)
    (hlo : 0 < lo) (hlohi : lo ≤ hi)
    (hmnh0 : mnh = 0 → lo = hi) (hmnhpos : 0 < mnh → lo < hi)
    (hmnhM : mnh ≤ M) :
    ∀ d, d ≤ mnh * hi + (M - mnh) * lo →
      partition_run hi lo mnh M d = some (fill_state hi lo mnh M d) := by
  have hhi : 0 < hi := lt_of_lt_of_le hlo hlohi
  intro d
  induction d with
  | zero =>
    intro _
    have hsz : (List.range M).map (fill_sizes hi lo mnh 0) = List.replicate M 0 := by
      apply map_range_eq_replicate
      intro b _
      unfold fill_sizes
      rw [if_pos (Nat.zero_le _), Nat.zero_div, Nat.zero_mod]
      split_ifs <;> omega
    have hcnh : fill_cnh hi mnh 0 = 0 := by
      unfold fill_cnh
      rw [Nat.zero_div]
      split_ifs <;> omega
    have hthr : fill_thr hi lo mnh 0 = hi := by
      unfold fill_thr
      rw [if_neg]
      rintro ⟨hp1, hp2⟩
      have := Nat.mul_pos hp1 hhi
      omega
    show some _ = some (fill_state hi lo mnh M 0)
    unfold fill_state
    rw [hsz, hcnh, hthr]
  | succ d ih =>
    intro hd1
    have hd : d ≤ mnh * hi + (M - mnh) * lo := by omega
    show (partition_run hi lo mnh M d).bind (partition_step hi lo mnh M) = _
    rw [ih hd, Option.some_bind]
    rcases Nat.lt_or_ge d (mnh * hi) with hph | hph
    · exact partition_step_fill_phase1 hi lo mnh M d hhi hmnhM hph
    · exact partition_step_fill_phase2 hi lo mnh M d hlo hlohi hmnh0 hmnhpos
        hmnhM hph (by omega)

/-- `max_num_high` is just `dim % M`. -/
theorem max_num_high_eq_mod (dim M : Nat) : max_num_high dim M = dim % M := by
  unfold max_num_high low_val
  have hqr : M * (dim / M) + dim % M = dim := Nat.div_add_mod dim M
  have hcomm : dim / M * M = M * (dim / M) := Nat.mul_comm _ _
  omega

/-- The bin capacities add up to `dim`. -/
theorem pq_partition_total (dim M : Nat) (hM : 1 ≤ M) :
    max_num_high dim M * high_val dim M
      + (M - max_num_high dim M) * low_val dim M = dim := by
  have hqr : M * (dim / M) + dim % M = dim := Nat.div_add_mod dim M
  have hmodM : dim % M < M := Nat.mod_lt _ hM
  rw [max_num_high_eq_mod]
  rcases Nat.eq_zero_or_pos (dim % M) with hr | hr
  · have hhi : high_val dim M = dim / M := by
      unfold high_val
      rw [if_pos hr, Nat.add_zero]
    rw [hr, hhi, Nat.zero_mul, Nat.zero_add, Nat.sub_zero]
    unfold low_val
    omega
  · have hhi : high_val dim M = dim / M + 1 := by
      unfold high_val
      rw [if_neg (by omega)]
    rw [hhi]
    unfold low_val
    rw [Nat.mul_add, Nat.mul_one, Nat.sub_mul]
    have hle : dim % M * (dim / M) ≤ M * (dim / M) :=
      Nat.mul_le_mul_right _ (Nat.le_of_lt hmodM)
    omega

/-- Final bin sizes: the first `max_num_high` bins hold `high_val` axes, the rest
hold `low_val`. -/
theorem fill_sizes_final (hi lo mnh M b d : Nat) (hlo : 0 < lo) (hlohi : lo ≤ hi)
    (hmnhM : mnh ≤ M) (hb : b < M) (hd : d = mnh * hi + (M - mnh) * lo) :
    fill_sizes hi lo mnh d b = if b < mnh then hi else lo := by
  subst hd
  have hhi : 0 < hi := lt_of_lt_of_le hlo hlohi
  have hsub : mnh * hi + (M - mnh) * lo - mnh * hi = (M - mnh) * lo := by omega
  rw [fill_sizes_phase2 _ _ _ _ _ hhi (by omega), hsub,
    Nat.mul_div_cancel _ hlo, Nat.mul_mod_left]
  split_ifs <;> omega

/-- The `chunk_offsets` fold produces the prefix sums `[S 0, S 1, ..., S (M-1)]`. -/
theorem build_fold_eq (sizes : List Nat) :
    ∀ M, 1 ≤ M →
      (List.range M).foldl
        (fun acc b =>
          if b > 0 then acc ++ [acc.getD (b - 1) 0 + sizes.getD (b - 1) 0] else acc)
        [0]
      = (List.range M).map
          (fun i => ((List.range i).map (fun b => sizes.getD b 0)).sum) := by
  intro M
  induction M with
  | zero => omega
  | succ M ih =>
    intro _
    rcases Nat.eq_zero_or_pos M with rfl | hM
    · rfl
    · rw [List.range_succ, List.foldl_append, ih hM, List.map_append]
      simp only [List.foldl_cons, List.foldl_nil]
      rw [if_pos (by omega)]
      congr 1
      rw [getD_map_range, if_pos (by omega)]
      obtain ⟨m, rfl⟩ : ∃ m, M = m + 1 := ⟨M - 1, by omega⟩
      rw [Nat.add_sub_cancel]
      congr 1
      show _ = (List.map (fun b => sizes.getD b 0) (List.range (m + 1))).sum
      rw [List.range_succ, List.map_append, List.sum_append]
      simp

/-- Prefix sums of the final bin sizes give `partition_pref_sum`. -/
theorem sum_final_sizes (hi lo mnh : Nat) (f : Nat → Nat) :
    ∀ i, (∀ b < i, f b = if b < mnh then hi else lo) →
      ((List.range i).map f).sum = partition_pref_sum hi lo mnh i := by
  intro i
  induction i with
  | zero =>
    intro _
    simp [partition_pref_sum]
  | succ i ih =>
    intro hf
    rw [List.range_succ, List.map_append, List.sum_append,
      ih (fun b hb => hf b (by omega))]
    simp only [List.map_cons, List.map_nil, List.sum_cons, List.sum_nil,
      Nat.add_zero]
    rw [hf i (by omega)]
    unfold partition_pref_sum
    split_ifs with h1 h2 h3 h2 h3 h3
    · rw [Nat.succ_mul]
    · omega
    · omega
    · have hieq : i = mnh := by omega
      subst hieq
      rw [show i + 1 - i = 1 by omega, Nat.one_mul]
    · omega
    · omega
    · omega
    · rw [show i + 1 - mnh = (i - mnh) + 1 by omega, Nat.succ_mul]
      omega

theorem getD_append_singleton (l : List Nat) (x i : Nat) :
    (l ++ [x]).getD i 0
      = if i < l.length then l.getD i 0 else if i = l.length then x else 0 := by
  rcases lt_trichotomy i l.length with h | h | h
  · rw [if_pos h, List.getD_eq_getElem?_getD, List.getD_eq_getElem?_getD,
      List.getElem?_append_left h]
  · rw [if_neg (by omega), if_pos h, List.getD_eq_getElem?_getD,
      List.getElem?_append_right (le_of_eq h.symm), h, Nat.sub_self]
    rfl
  · rw [if_neg (by omega), if_neg (by omega), List.getD_eq_default]
    rw [List.length_append]
    simp only [List.length_cons, List.length_nil]
    omega

/-- Each group width of `partition_pref_sum` is `hi` below `mnh` and `lo` above. -/
theorem partition_pref_sum_diff (hi lo mnh i : Nat) :
    partition_pref_sum hi lo mnh (i + 1) - partition_pref_sum hi lo mnh i
      = if i < mnh then hi else lo := by
  unfold partition_pref_sum
  rcases Nat.lt_or_ge i mnh with h | h
  · rw [if_pos (by omega), if_pos (by omega), if_pos h, Nat.succ_mul]
    omega
  · rcases Nat.eq_or_lt_of_le h with heq | hlt
    · subst heq
      rw [if_neg (by omega), if_pos (by omega), if_neg (by omega),
        show mnh + 1 - mnh = 1 by omega, Nat.one_mul]
      omega
    · rw [if_neg (by omega), if_neg (by omega), if_neg (by omega),
        show i + 1 - mnh = (i - mnh) + 1 by omega, Nat.succ_mul]
      omega

/-- The chunk-offset array of `generate_pq_pivots` in closed form. -/
theorem generate_pq_pivots_chunk_offsets_eq (dim M : Nat) (hM : 1 ≤ M)
    (hMD : M ≤ dim) :
    generate_pq_pivots_chunk_offsets dim M
      = some ((List.range M).map
          (partition_pref_sum (high_val dim M) (low_val dim M) (max_num_high dim M))
          ++ [dim]) := by
  have hlo : 0 < low_val dim M := Nat.div_pos hMD hM
  have hlohi : low_val dim M ≤ high_val dim M := Nat.le_add_right _ _
  have hmnh0 : max_num_high dim M = 0 → low_val dim M = high_val dim M := by
    intro h
    rw [max_num_high_eq_mod] at h
    unfold high_val low_val
    rw [if_pos h, Nat.add_zero]
  have hmnhpos : 0 < max_num_high dim M → low_val dim M < high_val dim M := by
    intro h
    rw [max_num_high_eq_mod] at h
    unfold high_val low_val
    rw [if_neg (by omega)]
    exact Nat.lt_succ_self _
  have hmnhM : max_num_high dim M ≤ M := by
    rw [max_num_high_eq_mod]
    exact le_of_lt (Nat.mod_lt _ hM)
  have htotal := pq_partition_total dim M hM
  unfold generate_pq_pivots_chunk_offsets
  rw [partition_run_fill _ _ _ _ hlo hlohi hmnh0 hmnhpos hmnhM dim
    (le_of_eq htotal.symm), Option.map_some']
  congr 1
  show build_chunk_offsets
      ((List.range M).map
        (fill_sizes (high_val dim M) (low_val dim M) (max_num_high dim M) dim))
      M dim = _
  unfold build_chunk_offsets
  rw [build_fold_eq _ M hM]
  congr 1
  apply List.map_congr_left
  intro i hi
  rw [List.mem_range] at hi
  apply sum_final_sizes
  intro b hb
  rw [getD_map_range, if_pos (by omega)]
  exact fill_sizes_final (high_val dim M) (low_val dim M) (max_num_high dim M)
    M b dim hlo hlohi hmnhM (by omega) htotal.symm

/-- **C1** (amended).  For every `1 ≤ M ≤ D`, the load-balanced partition computed
inside `generate_pq_pivots` (and by the identical code in `generate_opq_pivots`)
yields chunk offsets `O[0..M]` with `O[0] = 0`, `O[M] = D`, `O` strictly
increasing, and every group width in `{floor(D/M), ceil(D/M)}`.  The number of
groups of width `ceil(D/M)` equals `D − floor(D/M)·M` whenever `M` does not
divide `D`; when `M ∣ D` — the degenerate case on which the original claim fails —
`floor = ceil` and all `M` groups have that width.  In particular `D = 10, M = 3`
yields `O = [0, 4, 7, 10]`. -/
theorem C1_partition_props (D M : Nat) (h1 : 1 ≤ M) (h2 : M ≤ D) :
    ∃ O, generate_pq_pivots_chunk_offsets D M = some O ∧
      O.length = M + 1 ∧
      O.getD 0 0 = 0 ∧
      O.getD M 0 = D ∧
      (∀ i < M, O.getD i 0 < O.getD (i + 1) 0) ∧
      (∀ i < M, O.getD (i + 1) 0 - O.getD i 0 = low_val D M ∨
                O.getD (i + 1) 0 - O.getD i 0 = high_val D M) ∧
      ((List.range M).filter
          (fun i => O.getD (i + 1) 0 - O.getD i 0 = high_val D M)).length
        = (if D % M = 0 then M else D - low_val D M * M) ∧
      generate_pq_pivots_chunk_offsets 10 3 = some [0, 4, 7, 10] := by
  have hlo : 0 < low_val D M := Nat.div_pos h2 h1
  have hlohi : low_val D M ≤ high_val D M := Nat.le_add_right _ _
  have hmnhM : max_num_high D M < M := by
    rw [max_num_high_eq_mod]
    exact Nat.mod_lt _ h1
  have htotal := pq_partition_total D M h1
  refine ⟨_, generate_pq_pivots_chunk_offsets_eq D M h1 h2, ?_⟩
  have hlenmap :
      ((List.range M).map
        (partition_pref_sum (high_val D M) (low_val D M) (max_num_high D M))).length
      = M := by
    rw [List.length_map, List.length_range]
  have hOgetD : ∀ i,
      (((List.range M).map
          (partition_pref_sum (high_val D M) (low_val D M) (max_num_high D M)))
        ++ [D]).getD i 0
      = if i < M then partition_pref_sum (high_val D M) (low_val D M)
          (max_num_high D M) i
        else if i = M then D else 0 := by
    intro i
    rw [getD_append_singleton, hlenmap, getD_map_range]
    split_ifs <;> rfl
  have hprefix0 : partition_pref_sum (high_val D M) (low_val D M)
      (max_num_high D M) 0 = 0 := by
    unfold partition_pref_sum
    rw [if_pos (Nat.zero_le _), Nat.zero_mul]
  have hprefixM : partition_pref_sum (high_val D M) (low_val D M)
      (max_num_high D M) M = D := by
    unfold partition_pref_sum
    rw [if_neg (by omega)]
    exact htotal
  have hwidth : ∀ i < M,
      (((List.range M).map
          (partition_pref_sum (high_val D M) (low_val D M) (max_num_high D M)))
        ++ [D]).getD (i + 1) 0
      - (((List.range M).map
          (partition_pref_sum (high_val D M) (low_val D M) (max_num_high D M)))
        ++ [D]).getD i 0
      = if i < max_num_high D M then high_val D M else low_val D M := by
    intro i hiM
    rw [hOgetD, hOgetD, if_pos hiM]
    rcases lt_or_le (i + 1) M with h | h
    · rw [if_pos h]
      exact partition_pref_sum_diff _ _ _ i
    · have hieq : i + 1 = M := by omega
      rw [if_neg (by omega), if_pos hieq]
      have hdiff := partition_pref_sum_diff (high_val D M) (low_val D M)
        (max_num_high D M) i
      rw [hieq, hprefixM] at hdiff
      exact hdiff
  refine ⟨?_, ?_, ?_, ?_, ?_, ?_, by decide⟩
  · rw [List.length_append, hlenmap]
    rfl
  · rw [hOgetD, if_pos (by omega), hprefix0]
  · rw [hOgetD, if_neg (by omega), if_pos rfl]
  · intro i hiM
    have hw := hwidth i hiM
    rcases Nat.lt_or_ge i (max_num_high D M) with h | h
    · rw [if_pos h] at hw
      omega
    · rw [if_neg (by omega)] at hw
      omega
  · intro i hiM
    have hw := hwidth i hiM
    rcases Nat.lt_or_ge i (max_num_high D M) with h | h
    · right
      rw [hw, if_pos h]
    · left
      rw [hw, if_neg (by omega)]
  · rcases Nat.decEq (D % M) 0 with hnz | hz
    · -- `M` does not divide `D`: exactly the first `max_num_high` groups are wide
      have hmnhpos : 0 < max_num_high D M := by
        rw [max_num_high_eq_mod]
        omega
      have hlh : low_val D M < high_val D M := by
        unfold high_val low_val
        rw [if_neg hnz]
        exact Nat.lt_succ_self _
      rw [if_neg hnz]
      refine Eq.trans (b := ((List.range M).filter
          (fun i => decide (i < max_num_high D M))).length) ?_ ?_
      · congr 1
        apply List.filter_congr
        intro i hmem
        rw [List.mem_range] at hmem
        have hw := hwidth i hmem
        apply decide_eq_decide.2
        rcases Nat.lt_or_ge i (max_num_high D M) with h | h
        · rw [if_pos h] at hw
          exact iff_of_true hw h
        · rw [if_neg (by omega)] at hw
          refine iff_of_false ?_ (by omega)
          rw [hw]
          omega
      · have hsplit : List.range M = List.range' 0 (max_num_high D M)
            ++ List.range' (max_num_high D M) (M - max_num_high D M) := by
          rw [List.range_eq_range']
          have hr := List.range'_append 0 (max_num_high D M)
            (M - max_num_high D M) 1
          simp only [Nat.one_mul, Nat.zero_add] at hr
          rw [show M - max_num_high D M + max_num_high D M = M by omega] at hr
          exact hr.symm
        rw [hsplit, List.filter_append, List.filter_eq_self.2 ?_,
          List.filter_eq_nil_iff.2 ?_]
        · rw [List.length_append, List.length_range', List.length_nil,
            Nat.add_zero]
          rfl
        · intro a hmem
          obtain ⟨j, hj, rfl⟩ := List.mem_range'.1 hmem
          simp only [decide_eq_true_eq]
          omega
        · intro a hmem
          obtain ⟨j, hj, rfl⟩ := List.mem_range'.1 hmem
          simp only [decide_eq_true_eq]
          omega
    · -- `M` divides `D`: `low_val = high_val` and every group counts
      have hmnh0 : max_num_high D M = 0 := by
        rw [max_num_high_eq_mod]
        exact hz
      have hlh : low_val D M = high_val D M := by
        unfold high_val low_val
        rw [if_pos hz, Nat.add_zero]
      rw [if_pos hz, List.filter_eq_self.2 ?_]
      · exact List.length_range M
      · intro a hmem
        rw [List.mem_range] at hmem
        have hw := hwidth a hmem
        rw [if_neg (by omega)] at hw
        simp only [decide_eq_true_eq]
        rw [hw]
        exact hlh

/-- Witness for C1: the amended theorem applied at `D = 10`, `M = 3`. -/
theorem C1_partition_props_witness :
    (1 ≤ 3 ∧ 3 ≤ 10) ∧
      (∃ O, generate_pq_pivots_chunk_offsets 10 3 = some O ∧
        O.length = 3 + 1 ∧
        O.getD 0 0 = 0 ∧
        O.getD 3 0 = 10 ∧
        (∀ i < 3, O.getD i 0 < O.getD (i + 1) 0) ∧
        (∀ i < 3, O.getD (i + 1) 0 - O.getD i 0 = low_val 10 3 ∨
                  O.getD (i + 1) 0 - O.getD i 0 = high_val 10 3) ∧
        ((List.range 3).filter
            (fun i => O.getD (i + 1) 0 - O.getD i 0 = high_val 10 3)).length
          = (if 10 % 3 = 0 then 3 else 10 - low_val 10 3 * 3) ∧
        generate_pq_pivots_chunk_offsets 10 3 = some [0, 4, 7, 10]) :=
  ⟨by decide, C1_partition_props 10 3 (by decide) (by decide)⟩

/-- Counterexample to C1 as stated: at `D = 8`, `M = 4` all four groups have width
`ceil(8/4) = 2`, while the claim predicts `D − floor(D/M)·M = 0` ceil-width
groups. -/
theorem C1_count_counterexample :
    ∃ O, generate_pq_pivots_chunk_offsets 8 4 = some O ∧
      ¬ ((List.range 4).filter
          (fun i => O.getD (i + 1) 0 - O.getD i 0 = high_val 8 4)).length
        = 8 - low_val 8 4 * 4 :=
  ⟨[0, 2, 4, 6, 8], by decide, by decide⟩

theorem memset_zero_length (buf : List ℚ) (n : Nat) :
    (memset_zero buf n).length = n + (buf.length - n) := by
  rw [memset_zero, List.length_append, List.length_replicate, List.length_drop]

theorem memset_zero_getD_lt (buf : List ℚ) (n i : Nat) (h : i < n) :
    (memset_zero buf n).getD i 0 = 0 := by
  rw [memset_zero, List.getD_eq_getElem?_getD,
    List.getElem?_append_left (by rw [List.length_replicate]; exact h),
    List.getElem?_replicate, if_pos h]
  rfl

theorem getD_set_self (l : List ℚ) (i : Nat) (v : ℚ) (h : i < l.length) :
    (l.set i v).getD i 0 = v := by
  rw [List.getD_eq_getElem?_getD, List.getElem?_set, if_pos rfl, if_pos h]
  rfl

theorem getD_set_other (l : List ℚ) (i j : Nat) (v : ℚ) (h : i ≠ j) :
    (l.set i v).getD j 0 = l.getD j 0 := by
  rw [List.getD_eq_getElem?_getD, List.getElem?_set, if_neg h,
    ← List.getD_eq_getElem?_getD]

/-- Effect of the innermost accumulation loop (over the 256 centers of one
chunk): every cell of the window `[base, base + k)` gains `g idx`. -/
theorem window_add_foldl (g : Nat → ℚ) (base : Nat) :
    ∀ (k : Nat) (l : List ℚ), base + k ≤ l.length →
      (((List.range k).foldl
          (fun a idx => a.set (base + idx) (a.getD (base + idx) 0 + g idx))
          l).length = l.length)
      ∧ ∀ i, ((List.range k).foldl
          (fun a idx => a.set (base + idx) (a.getD (base + idx) 0 + g idx))
          l).getD i 0
        = l.getD i 0 + (if base ≤ i ∧ i < base + k then g (i - base) else 0) := by
  intro k
  induction k with
  | zero =>
    intro l _
    simp only [List.range_zero, List.foldl_nil]
    exact ⟨trivial, fun i => by rw [if_neg (by omega), add_zero]⟩
  | succ k ih =>
    intro l hlen
    obtain ⟨ihlen, ihget⟩ := ih l (by omega)
    rw [List.range_succ, List.foldl_append]
    simp only [List.foldl_cons, List.foldl_nil]
    constructor
    · rw [List.length_set, ihlen]
    · intro i
      rcases eq_or_ne (base + k) i with hik | hik
      · rw [← hik, getD_set_self _ _ _ (by rw [ihlen]; omega), ihget,
          if_neg (by omega), if_pos (by omega), Nat.add_sub_cancel_left]
        ring
      · rw [getD_set_other _ _ _ _ hik, ihget]
        congr 1
        by_cases hin : base ≤ i ∧ i < base + k
        · rw [if_pos hin, if_pos (by omega)]
        · rw [if_neg hin, if_neg (by omega)]

/-- Effect of the middle loop (over the dimensions of one chunk): the window
accumulates the per-dimension contributions. -/
theorem window_add_foldl_list (G : Nat → Nat → ℚ) (base k : Nat) :
    ∀ (js : List Nat) (l : List ℚ), base + k ≤ l.length →
      ((js.foldl
          (fun a j => (List.range k).foldl
            (fun a idx => a.set (base + idx) (a.getD (base + idx) 0 + G j idx))
            a)
          l).length = l.length)
      ∧ ∀ i, (js.foldl
          (fun a j => (List.range k).foldl
            (fun a idx => a.set (base + idx) (a.getD (base + idx) 0 + G j idx))
            a)
          l).getD i 0
        = l.getD i 0 + (if base ≤ i ∧ i < base + k
            then (js.map (fun j => G j (i - base))).sum else 0) := by
  intro js
  induction js with
  | nil =>
    intro l _
    simp only [List.foldl_nil, List.map_nil, List.sum_nil]
    exact ⟨trivial, fun i => by split_ifs <;> ring⟩
  | cons j js ih =>
    intro l hlen
    simp only [List.foldl_cons]
    obtain ⟨h1len, h1get⟩ := window_add_foldl (G j) base k l hlen
    obtain ⟨h2len, h2get⟩ := ih
      ((List.range k).foldl
        (fun a idx => a.set (base + idx) (a.getD (base + idx) 0 + G j idx)) l)
      (by rw [h1len]; omega)
    constructor
    · rw [h2len, h1len]
    · intro i
      rw [h2get i, h1get i]
      simp only [List.map_cons, List.sum_cons]
      by_cases hin : base ≤ i ∧ i < base + k
      · rw [if_pos hin, if_pos hin, if_pos hin]
        ring
      · rw [if_neg hin, if_neg hin, if_neg hin]
        ring

/-- Effect of the outer loop (over chunks): chunk `c` owns window
`[256 c, 256 (c+1))`, so cell `i < 256 M` receives the contributions of chunk
`i / 256` at center `i % 256`. -/
theorem chunk_windows_foldl (JS : Nat → List Nat) (G : Nat → Nat → Nat → ℚ) :
    ∀ (M : Nat) (l : List ℚ), 256 * M ≤ l.length →
      (((List.range M).foldl
          (fun a chunk => (JS chunk).foldl
            (fun a j => (List.range 256).foldl
              (fun a idx => a.set (256 * chunk + idx)
                (a.getD (256 * chunk + idx) 0 + G chunk j idx)) a) a)
          l).length = l.length)
      ∧ ∀ i, ((List.range M).foldl
          (fun a chunk => (JS chunk).foldl
            (fun a j => (List.range 256).foldl
              (fun a idx => a.set (256 * chunk + idx)
                (a.getD (256 * chunk + idx) 0 + G chunk j idx)) a) a)
          l).getD i 0
        = l.getD i 0 + (if i < 256 * M
            then ((JS (i / 256)).map (fun j => G (i / 256) j (i % 256))).sum
            else 0) := by
  intro M
  induction M with
  | zero =>
    intro l _
    simp only [List.range_zero, List.foldl_nil]
    exact ⟨trivial, fun i => by rw [if_neg (by omega), add_zero]⟩
  | succ M ih =>
    intro l hlen
    obtain ⟨ihlen, ihget⟩ := ih l (by omega)
    rw [List.range_succ M, List.foldl_append]
    simp only [List.foldl_cons, List.foldl_nil]
    obtain ⟨h2len, h2get⟩ := window_add_foldl_list (G M) (256 * M) 256 (JS M)
      ((List.range M).foldl
        (fun a chunk => (JS chunk).foldl
          (fun a j => (List.range 256).foldl
            (fun a idx => a.set (256 * chunk + idx)
              (a.getD (256 * chunk + idx) 0 + G chunk j idx)) a) a)
        l)
      (by rw [ihlen]; omega)
    constructor
    · rw [h2len, ihlen]
    · intro i
      rw [h2get i, ihget i]
      by_cases hin : 256 * M ≤ i ∧ i < 256 * M + 256
      · have hdiv : i / 256 = M := by omega
        have hmod : i % 256 = i - 256 * M := by omega
        rw [if_pos hin, if_neg (by omega), if_pos (by omega), hdiv, hmod]
        ring
      · rw [if_neg hin]
        by_cases hlt : i < 256 * M
        · rw [if_pos hlt, if_pos (by omega)]
          ring
        · rw [if_neg hlt, if_neg (by omega)]
          ring

/-- Inner loop of `pq_dist_lookup`: every output cell below `n` gains `g idx`. -/
theorem flat_add_foldl (g : Nat → ℚ) :
    ∀ (n : Nat) (l : List ℚ), n ≤ l.length →
      (((List.range n).foldl
          (fun a idx => a.set idx (a.getD idx 0 + g idx)) l).length = l.length)
      ∧ ∀ i, ((List.range n).foldl
          (fun a idx => a.set idx (a.getD idx 0 + g idx)) l).getD i 0
        = l.getD i 0 + (if i < n then g i else 0) := by
  intro n
  induction n with
  | zero =>
    intro l _
    simp only [List.range_zero, List.foldl_nil]
    exact ⟨trivial, fun i => by rw [if_neg (by omega), add_zero]⟩
  | succ n ih =>
    intro l hlen
    obtain ⟨ihlen, ihget⟩ := ih l (by omega)
    rw [List.range_succ n, List.foldl_append]
    simp only [List.foldl_cons, List.foldl_nil]
    constructor
    · rw [List.length_set, ihlen]
    · intro i
      rcases eq_or_ne n i with hik | hik
      · rw [← hik, getD_set_self _ _ _ (by rw [ihlen]; omega), ihget,
          if_neg (by omega), if_pos (by omega)]
        ring
      · rw [getD_set_other _ _ _ _ hik, ihget]
        congr 1
        by_cases hin : i < n
        · rw [if_pos hin, if_pos (by omega)]
        · rw [if_neg hin, if_neg (by omega)]

/-- Outer loop of `pq_dist_lookup`: output cell `i < n` accumulates the per-chunk
contributions. -/
theorem flat_add_foldl_chunks (G : Nat → Nat → ℚ) (n : Nat) :
    ∀ (cs : List Nat) (l : List ℚ), n ≤ l.length →
      ((cs.foldl
          (fun a chunk => (List.range n).foldl
            (fun a idx => a.set idx (a.getD idx 0 + G chunk idx)) a) l).length
        = l.length)
      ∧ ∀ i, (cs.foldl
          (fun a chunk => (List.range n).foldl
            (fun a idx => a.set idx (a.getD idx 0 + G chunk idx)) a) l).getD i 0
        = l.getD i 0
          + (if i < n then (cs.map (fun c => G c i)).sum else 0) := by
  intro cs
  induction cs with
  | nil =>
    intro l _
    simp only [List.foldl_nil, List.map_nil, List.sum_nil]
    exact ⟨trivial, fun i => by split_ifs <;> ring⟩
  | cons c cs ih =>
    intro l hlen
    simp only [List.foldl_cons]
    obtain ⟨h1len, h1get⟩ := flat_add_foldl (G c) n l hlen
    obtain ⟨h2len, h2get⟩ := ih
      ((List.range n).foldl
        (fun a idx => a.set idx (a.getD idx 0 + G c idx)) l)
      (by rw [h1len]; omega)
    constructor
    · rw [h2len, h1len]
    · intro i
      rw [h2get i, h1get i]
      simp only [List.map_cons, List.sum_cons]
      by_cases hin : i < n
      · rw [if_pos hin, if_pos hin, if_pos hin]
        ring
      · rw [if_neg hin, if_neg hin, if_neg hin]
        ring

theorem populate_chunk_distances_spec (t : FixedChunkPQTable) (query_vec : List ℚ)
    (dist_vec : List ℚ) :
    ((populate_chunk_distances t query_vec dist_vec).length
        = 256 * t.n_chunks + (dist_vec.length - 256 * t.n_chunks))
    ∧ ∀ i < 256 * t.n_chunks,
        (populate_chunk_distances t query_vec dist_vec).getD i 0
          = ((chunk_dims t (i / 256)).map
              (fun j => (t.tables_tr.getD (256 * j + i % 256) 0
                  - query_vec.getD j 0)
                * (t.tables_tr.getD (256 * j + i % 256) 0
                  - query_vec.getD j 0))).sum := by
  obtain ⟨hlen, hget⟩ := chunk_windows_foldl (chunk_dims t)
    (fun chunk j idx =>
      (t.tables_tr.getD (256 * j + idx) 0 - query_vec.getD j 0)
        * (t.tables_tr.getD (256 * j + idx) 0 - query_vec.getD j 0))
    t.n_chunks (memset_zero dist_vec (256 * t.n_chunks))
    (by rw [memset_zero_length]; omega)
  refine ⟨?_, fun i hi => ?_⟩
  · rw [populate_chunk_distances, hlen, memset_zero_length]
  · rw [populate_chunk_distances, hget i, if_pos hi,
      memset_zero_getD_lt _ _ _ hi, zero_add]

theorem populate_chunk_inner_products_spec (t : FixedChunkPQTable)
    (query_vec : List ℚ) (dist_vec : List ℚ) :
    ((populate_chunk_inner_products t query_vec dist_vec).length
        = 256 * t.n_chunks + (dist_vec.length - 256 * t.n_chunks))
    ∧ ∀ i < 256 * t.n_chunks,
        (populate_chunk_inner_products t query_vec dist_vec).getD i 0
          = ((chunk_dims t (i / 256)).map
              (fun j => -(t.tables_tr.getD (256 * j + i % 256) 0
                * query_vec.getD j 0))).sum := by
  obtain ⟨hlen, hget⟩ := chunk_windows_foldl (chunk_dims t)
    (fun chunk j idx =>
      -(t.tables_tr.getD (256 * j + idx) 0 * query_vec.getD j 0))
    t.n_chunks (memset_zero dist_vec (256 * t.n_chunks))
    (by rw [memset_zero_length]; omega)
  have hdef : populate_chunk_inner_products t query_vec dist_vec
      = (List.range t.n_chunks).foldl
          (fun a chunk => (chunk_dims t chunk).foldl
            (fun a j => (List.range 256).foldl
              (fun a idx => a.set (256 * chunk + idx)
                (a.getD (256 * chunk + idx) 0
                  + -(t.tables_tr.getD (256 * j + idx) 0
                    * query_vec.getD j 0))) a) a)
          (memset_zero dist_vec (256 * t.n_chunks)) := by
    rw [populate_chunk_inner_products]
    simp only [sub_eq_add_neg]
  refine ⟨?_, fun i hi => ?_⟩
  · rw [hdef, hlen, memset_zero_length]
  · rw [hdef, hget i, if_pos hi, memset_zero_getD_lt _ _ _ hi, zero_add]

theorem pq_dist_lookup_spec (pq_ids : List Nat) (n_pts pq_nchunks : Nat)
    (pq_dists dists_out : List ℚ) :
    ((pq_dist_lookup pq_ids n_pts pq_nchunks pq_dists dists_out).length
        = n_pts + (dists_out.length - n_pts))
    ∧ ∀ i < n_pts,
        (pq_dist_lookup pq_ids n_pts pq_nchunks pq_dists dists_out).getD i 0
          = ((List.range pq_nchunks).map
              (fun chunk => pq_dists.getD
                (256 * chunk + pq_ids.getD (pq_nchunks * i + chunk) 0) 0)).sum := by
  obtain ⟨hlen, hget⟩ := flat_add_foldl_chunks
    (fun chunk idx => pq_dists.getD
      (256 * chunk + pq_ids.getD (pq_nchunks * idx + chunk) 0) 0)
    n_pts (List.range pq_nchunks) (memset_zero dists_out n_pts)
    (by rw [memset_zero_length]; omega)
  refine ⟨?_, fun i hi => ?_⟩
  · rw [pq_dist_lookup, hlen, memset_zero_length]
  · rw [pq_dist_lookup, hget i, if_pos hi, memset_zero_getD_lt _ _ _ hi,
      zero_add]

theorem sum_map_neg {α : Type} (l : List α) (f : α → ℚ) :
    (l.map (fun x => -(f x))).sum = -((l.map f).sum) := by
  induction l with
  | nil => simp
  | cons x l ih =>
    simp only [List.map_cons, List.sum_cons, ih]
    ring

theorem take_eq_of_getD_eq (l1 l2 : List ℚ) (n : Nat) (h1 : n ≤ l1.length)
    (h2 : n ≤ l2.length) (h : ∀ i < n, l1.getD i 0 = l2.getD i 0) :
    l1.take n = l2.take n := by
  apply List.ext_getElem?
  intro i
  rw [List.getElem?_take, List.getElem?_take]
  split_ifs with hi
  · have h3 := h i hi
    rw [List.getD_eq_getElem?_getD, List.getD_eq_getElem?_getD,
      List.getElem?_eq_getElem (show i < l1.length by omega),
      List.getElem?_eq_getElem (show i < l2.length by omega)] at h3
    rw [List.getElem?_eq_getElem (show i < l1.length by omega),
      List.getElem?_eq_getElem (show i < l2.length by omega)]
    simpa using h3
  · rfl

/-- **C3**.  For every PQ table (in particular every loaded one), preprocessed
query of length `ndims`, and code array with every entry below 256: summing the
table written by `populate_chunk_distances` along the code equals `l2_distance`,
and likewise `populate_chunk_inner_products` sums to `inner_product`
(float arithmetic idealised as exact rationals; the caller-supplied output
buffers are arbitrary). -/
theorem C3_distance_table_sums (t : FixedChunkPQTable) (query_vec : List ℚ)
    (code : List Nat) (buf1 buf2 : List ℚ)
    (_hq : query_vec.length = t.ndims)
    (hcode : ∀ i < t.n_chunks, code.getD i 0 < 256) :
    ((List.range t.n_chunks).map
        (fun i => (populate_chunk_distances t query_vec buf1).getD
          (i * 256 + code.getD i 0) 0)).sum
      = l2_distance t query_vec code
    ∧ ((List.range t.n_chunks).map
        (fun i => (populate_chunk_inner_products t query_vec buf2).getD
          (i * 256 + code.getD i 0) 0)).sum
      = inner_product t query_vec code := by
  constructor
  · rw [l2_distance]
    congr 1
    apply List.map_congr_left
    intro i hmem
    rw [List.mem_range] at hmem
    have hc := hcode i hmem
    have hlt : i * 256 + code.getD i 0 < 256 * t.n_chunks := by omega
    rw [(populate_chunk_distances_spec t query_vec buf1).2 _ hlt,
      show (i * 256 + code.getD i 0) / 256 = i by omega,
      show (i * 256 + code.getD i 0) % 256 = code.getD i 0 by omega]
  · rw [inner_product, ← sum_map_neg]
    congr 1
    apply List.map_congr_left
    intro i hmem
    rw [List.mem_range] at hmem
    have hc := hcode i hmem
    have hlt : i * 256 + code.getD i 0 < 256 * t.n_chunks := by omega
    rw [(populate_chunk_inner_products_spec t query_vec buf2).2 _ hlt,
      show (i * 256 + code.getD i 0) / 256 = i by omega,
      show (i * 256 + code.getD i 0) % 256 = code.getD i 0 by omega,
      sum_map_neg]

/-- Witness for C3 at a concrete table, query `[3]` and code `[1]`. -/
theorem C3_distance_table_sums_witness :
    (([3] : List ℚ).length = c3_table.ndims
      ∧ ∀ i < c3_table.n_chunks, [1].getD i 0 < 256)
    ∧ (((List.range c3_table.n_chunks).map
          (fun i => (populate_chunk_distances c3_table [3] []).getD
            (i * 256 + [1].getD i 0) 0)).sum
        = l2_distance c3_table [3] [1]
      ∧ ((List.range c3_table.n_chunks).map
          (fun i => (populate_chunk_inner_products c3_table [3] []).getD
            (i * 256 + [1].getD i 0) 0)).sum
        = inner_product c3_table [3] [1]) :=
  ⟨⟨by decide, by decide⟩,
    C3_distance_table_sums c3_table [3] [1] [] [] (by decide) (by decide)⟩

/-- **C4** (amended).  `pq_dist_lookup` writes
`out[i] = Σ_{c < M} chunk_dists[256·c + gathered_codes[i·M + c]]` for every
`i < n`: the per-chunk stride into the distance table is the hard-coded `256`
(the layout written by `populate_chunk_distances`), not a caller-chosen `K`. -/
theorem C4_pq_dist_lookup_formula (pq_ids : List Nat) (n_pts pq_nchunks : Nat)
    (pq_dists dists_out : List ℚ) (i : Nat) (hi : i < n_pts) :
    (pq_dist_lookup pq_ids n_pts pq_nchunks pq_dists dists_out).getD i 0
      = ((List.range pq_nchunks).map
          (fun c => pq_dists.getD
            (256 * c + pq_ids.getD (i * pq_nchunks + c) 0) 0)).sum := by
  rw [(pq_dist_lookup_spec pq_ids n_pts pq_nchunks pq_dists dists_out).2 i hi]
  congr 1
  apply List.map_congr_left
  intro c _
  rw [Nat.mul_comm pq_nchunks i]

/-- Witness for C4 at the spec's scenario (`M = 3`, codes `[[1,2,3],[0,0,0]]`)
with the stride-256 layout; the first output is `1 + 12 + 23 = 36`. -/
theorem C4_pq_dist_lookup_formula_witness :
    0 < 2
    ∧ (pq_dist_lookup [1, 2, 3, 0, 0, 0] 2 3 c4_chunk_dists []).getD 0 0
      = ((List.range 3).map
          (fun c => c4_chunk_dists.getD
            (256 * c + [1, 2, 3, 0, 0, 0].getD (0 * 3 + c) 0) 0)).sum
    ∧ ((List.range 3).map
        (fun c => c4_chunk_dists.getD
          (256 * c + [1, 2, 3, 0, 0, 0].getD (0 * 3 + c) 0) 0)).sum = 36 := by
  refine ⟨by decide,
    C4_pq_dist_lookup_formula [1, 2, 3, 0, 0, 0] 2 3 c4_chunk_dists [] 0
      (by decide), ?_⟩
  have e1 : c4_chunk_dists.getD 1 0 = 1 := by
    rw [c4_chunk_dists, getD_map_range]
    norm_num
  have e2 : c4_chunk_dists.getD 258 0 = 12 := by
    rw [c4_chunk_dists, getD_map_range]
    norm_num
  have e3 : c4_chunk_dists.getD 515 0 = 23 := by
    rw [c4_chunk_dists, getD_map_range]
    norm_num
  have h1 : List.range 3 = [0, 1, 2] := by decide
  rw [h1]
  simp only [List.map_cons, List.map_nil, List.sum_cons, List.sum_nil,
    List.getD_cons_zero, List.getD_cons_succ]
  norm_num
  rw [← List.getD_eq_getElem?_getD, ← List.getD_eq_getElem?_getD,
    ← List.getD_eq_getElem?_getD, e1, e2, e3]
  norm_num

/-- Counterexample to C4 as stated: with `K = 4` and the claim's table
`chunk_dists[c·K + k] = c·10 + k` (so 12 entries), the code does **not** compute
`Σ_c chunk_dists[c·K + codes[c]]` (which would be `1 + 12 + 23 = 36`) — it reads
with stride 256 and returns `1`. -/
theorem C4_stride_counterexample :
    ¬ (pq_dist_lookup [1, 2, 3, 0, 0, 0] 2 3
          [0, 1, 2, 3, 10, 11, 12, 13, 20, 21, 22, 23] []).getD 0 0
      = ((List.range 3).map
          (fun c => [(0 : ℚ), 1, 2, 3, 10, 11, 12, 13, 20, 21, 22, 23].getD
            (c * 4 + [1, 2, 3, 0, 0, 0].getD (0 * 3 + c) 0) 0)).sum := by
  intro h
  rw [(pq_dist_lookup_spec [1, 2, 3, 0, 0, 0] 2 3
      [0, 1, 2, 3, 10, 11, 12, 13, 20, 21, 22, 23] []).2 0 (by decide)] at h
  have hr : List.range 3 = [0, 1, 2] := by decide
  have d258 : ([(0 : ℚ), 1, 2, 3, 10, 11, 12, 13, 20, 21, 22, 23]).getD 258 0
      = 0 := List.getD_eq_default _ _ (by decide)
  have d515 : ([(0 : ℚ), 1, 2, 3, 10, 11, 12, 13, 20, 21, 22, 23]).getD 515 0
      = 0 := List.getD_eq_default _ _ (by decide)
  rw [hr] at h
  simp only [List.map_cons, List.map_nil, List.sum_cons, List.sum_nil,
    List.getD_cons_zero, List.getD_cons_succ] at h
  norm_num [d258, d515] at h

/-- **C10**.  The outputs of `populate_chunk_distances`,
`populate_chunk_inner_products` and `pq_dist_lookup` do not depend on the prior
contents of the caller-supplied output buffer: each zero-initialises the whole
output region before accumulating, so any two initial buffer contents yield the
same final output region. -/
theorem C10_output_independent_of_buffer (t : FixedChunkPQTable)
    (query_vec : List ℚ) (pq_ids : List Nat) (n_pts pq_nchunks : Nat)
    (pq_dists : List ℚ) (b1 b2 b3 b4 b5 b6 : List ℚ) :
    (populate_chunk_distances t query_vec b1).take (256 * t.n_chunks)
      = (populate_chunk_distances t query_vec b2).take (256 * t.n_chunks)
    ∧ (populate_chunk_inner_products t query_vec b3).take (256 * t.n_chunks)
      = (populate_chunk_inner_products t query_vec b4).take (256 * t.n_chunks)
    ∧ (pq_dist_lookup pq_ids n_pts pq_nchunks pq_dists b5).take n_pts
      = (pq_dist_lookup pq_ids n_pts pq_nchunks pq_dists b6).take n_pts := by
  refine ⟨?_, ?_, ?_⟩
  · apply take_eq_of_getD_eq _ _ _
      (by rw [(populate_chunk_distances_spec t query_vec b1).1]; omega)
      (by rw [(populate_chunk_distances_spec t query_vec b2).1]; omega)
    intro i hi
    rw [(populate_chunk_distances_spec t query_vec b1).2 i hi,
      (populate_chunk_distances_spec t query_vec b2).2 i hi]
  · apply take_eq_of_getD_eq _ _ _
      (by rw [(populate_chunk_inner_products_spec t query_vec b3).1]; omega)
      (by rw [(populate_chunk_inner_products_spec t query_vec b4).1]; omega)
    intro i hi
    rw [(populate_chunk_inner_products_spec t query_vec b3).2 i hi,
      (populate_chunk_inner_products_spec t query_vec b4).2 i hi]
  · apply take_eq_of_getD_eq _ _ _
      (by rw [(pq_dist_lookup_spec pq_ids n_pts pq_nchunks pq_dists b5).1]; omega)
      (by rw [(pq_dist_lookup_spec pq_ids n_pts pq_nchunks pq_dists b6).1]; omega)
    intro i hi
    rw [(pq_dist_lookup_spec pq_ids n_pts pq_nchunks pq_dists b5).2 i hi,
      (pq_dist_lookup_spec pq_ids n_pts pq_nchunks pq_dists b6).2 i hi]

theorem lookup_head (k : Nat) (b : BinBlob) (es : List (Nat × BinBlob)) :
    List.lookup k ((k, b) :: es) = some b := by
  simp [List.lookup]

theorem lookup_skip (k a : Nat) (b : BinBlob) (es : List (Nat × BinBlob))
    (h : ¬ a = k) : List.lookup k ((a, b) :: es) = List.lookup k es := by
  have hb1 : (a == k) = false := by simpa using h
  have hb2 : (k == a) = false := by simpa using fun hh => h hh.symm
  simp [List.lookup, hb1, hb2]

theorem transpose_tables_getD (ndims : Nat) (tables : List ℚ) (c j : Nat)
    (hc : c < 256) (hj : j < ndims) :
    (transpose_tables ndims tables).getD (j * 256 + c) 0
      = tables.getD (c * ndims + j) 0 := by
  rw [transpose_tables, getD_map_range, if_pos (by
    have : j + 1 ≤ ndims := hj
    calc j * 256 + c < j * 256 + 256 := by omega
    _ = (j + 1) * 256 := by ring
    _ ≤ ndims * 256 := Nat.mul_le_mul_right 256 this
    _ = 256 * ndims := Nat.mul_comm _ _)]
  rw [show (j * 256 + c) % 256 = c by omega, show (j * 256 + c) / 256 = j by omega]

theorem load_pq_centroid_bin_transposes (f : PQPivotsFile)
    (rot_file : Option BinBlob) (num_chunks : Nat) (t : FixedChunkPQTable)
    (h : load_pq_centroid_bin f rot_file num_chunks = some t) :
    t.tables_tr = transpose_tables t.ndims t.tables := by
  simp only [load_pq_centroid_bin] at h
  split at h
  · exact Option.noConfusion h
  next nr _nc offs _heq =>
    by_cases h45 : nr = 4 ∨ nr = 5
    · rw [if_pos h45] at h
      split at h
      · exact Option.noConfusion h
      next nr2 nc2 tables _heq1 =>
        by_cases h256 : nr2 = NUM_PQ_CENTROIDS
        · rw [if_pos h256] at h
          split at h
          · exact Option.noConfusion h
          next nr3 nc3 centroid _heq2 =>
            by_cases hc3 : nr3 = nc2 ∧ nc3 = 1
            · rw [if_pos hc3] at h
              split at h
              · exact Option.noConfusion h
              next nr4 nc4 cofs _heq3 =>
                by_cases hc4 : nc4 = 1 ∧ (nr4 = num_chunks + 1 ∨ num_chunks = 0)
                · rw [if_pos hc4] at h
                  split at h
                  · rename_i nr5 nc5 rot
                    by_cases h5 : nr5 = nc2 ∧ nc5 = nc2
                    · rw [if_pos h5] at h; cases h; rfl
                    · rw [if_neg h5] at h; exact Option.noConfusion h
                  · exact Option.noConfusion h
                  · cases h; rfl
                · rw [if_neg hc4] at h; exact Option.noConfusion h
            · rw [if_neg hc3] at h; exact Option.noConfusion h
        · rw [if_neg h256] at h; exact Option.noConfusion h
    · rw [if_neg h45] at h; exact Option.noConfusion h

theorem write_pivot_file_eq (C μ : List ℚ) (O : List Nat) (K dim : Nat) :
    write_pivot_file C μ O K dim
      = four_entry_file METADATA_SIZE
          (METADATA_SIZE + blobBytes (.f32blob K dim C))
          (METADATA_SIZE + blobBytes (.f32blob K dim C)
            + blobBytes (.f32blob dim 1 μ))
          (METADATA_SIZE + blobBytes (.f32blob K dim C)
            + blobBytes (.f32blob dim 1 μ)
            + blobBytes (.u32blob O.length 1 O))
          K C μ O dim := rfl

theorem load_four_entry_file (a0 a1 a2 a3 : Nat) (C μ : List ℚ) (O : List Nat)
    (dim M nchunks : Nat) (hO : O.length = M + 1)
    (hn : nchunks = M ∨ nchunks = 0)
    (h0 : 0 < a0) (h01 : a0 < a1) (h12 : a1 < a2) :
    load_pq_centroid_bin (four_entry_file a0 a1 a2 a3 256 C μ O dim) none nchunks
      = some ⟨dim, M, C, transpose_tables dim C, O, μ, none⟩ := by
  have l0 : List.lookup 0 (four_entry_file a0 a1 a2 a3 256 C μ O dim)
      = some (.u64blob 4 1 [a0, a1, a2, a3]) := by
    rw [four_entry_file, lookup_skip _ _ _ _ (by omega),
      lookup_skip _ _ _ _ (by omega), lookup_skip _ _ _ _ (by omega),
      lookup_head]
  have lA : List.lookup a0 (four_entry_file a0 a1 a2 a3 256 C μ O dim)
      = some (.f32blob 256 dim C) := by
    rw [four_entry_file, lookup_head]
  have lB : List.lookup a1 (four_entry_file a0 a1 a2 a3 256 C μ O dim)
      = some (.f32blob dim 1 μ) := by
    rw [four_entry_file, lookup_skip _ _ _ _ (by omega), lookup_head]
  have lC : List.lookup a2 (four_entry_file a0 a1 a2 a3 256 C μ O dim)
      = some (.u32blob O.length 1 O) := by
    rw [four_entry_file, lookup_skip _ _ _ _ (by omega),
      lookup_skip _ _ _ _ (by omega), lookup_head]
  have r0 : readU64 (four_entry_file a0 a1 a2 a3 256 C μ O dim) 0
      = some (4, 1, [a0, a1, a2, a3]) := by rw [readU64, l0]
  have rA : readF32 (four_entry_file a0 a1 a2 a3 256 C μ O dim) a0
      = some (256, dim, C) := by rw [readF32, lA]
  have rB : readF32 (four_entry_file a0 a1 a2 a3 256 C μ O dim) a1
      = some (dim, 1, μ) := by rw [readF32, lB]
  have rC : readU32 (four_entry_file a0 a1 a2 a3 256 C μ O dim) a2
      = some (O.length, 1, O) := by rw [readU32, lC]
  rcases hn with rfl | rfl
  · simp [load_pq_centroid_bin, r0, rA, rB, rC, NUM_PQ_CENTROIDS, hO]
  · simp [load_pq_centroid_bin, r0, rA, rB, rC, NUM_PQ_CENTROIDS, hO]

theorem generate_pq_pivots_success (km : Nat → List ℚ → List ℚ)
    (passed : List ℚ) (num_train dim num_centers M : Nat) (mzm : Bool)
    (hM : 1 ≤ M) (hMD : M ≤ dim) :
    ∃ O, generate_pq_pivots_chunk_offsets dim M = some O ∧ O.length = M + 1 ∧
      generate_pq_pivots km passed num_train dim num_centers M none mzm
        = (0, some (write_pivot_file
            (assemble_pivots km
              (center_train_data (trainer_train_data passed num_train dim)
                num_train dim mzm) O num_train dim num_centers M)
            (compute_centroid (trainer_train_data passed num_train dim)
              num_train dim mzm)
            O num_centers dim)) := by
  have hO := generate_pq_pivots_chunk_offsets_eq dim M hM hMD
  refine ⟨_, hO, by simp, ?_⟩
  rw [generate_pq_pivots, if_neg (by omega)]
  simp only [hO]
  rfl

/-- C7: for every successfully loaded PQ table, the transposed centroid view
satisfies `tables_tr[j * 256 + c] = tables[c * ndims + j]` for all centers
`c < 256` and axes `j < ndims`. -/
theorem C7_transposed_view (f : PQPivotsFile) (rot_file : Option BinBlob)
    (num_chunks : Nat) (t : FixedChunkPQTable)
    (hload : load_pq_centroid_bin f rot_file num_chunks = some t) :
    ∀ c, c < 256 → ∀ j, j < t.ndims →
      t.tables_tr.getD (j * 256 + c) 0 = t.tables.getD (c * t.ndims + j) 0 := by
  intro c hc j hj
  rw [load_pq_centroid_bin_transposes f rot_file num_chunks t hload]
  exact transpose_tables_getD t.ndims t.tables c j hc hj

theorem C7_transposed_view_witness :
    load_pq_centroid_bin c7_file none 1 = some c7_table
    ∧ (∀ c, c < 256 → ∀ j, j < c7_table.ndims →
        c7_table.tables_tr.getD (j * 256 + c) 0
          = c7_table.tables.getD (c * c7_table.ndims + j) 0) :=
  have h : load_pq_centroid_bin c7_file none 1 = some c7_table :=
    load_four_entry_file 10 20 30 40 c7_tables [0] [0, 1] 1 1 1 rfl (Or.inl rfl)
      (by decide) (by decide) (by decide)
  ⟨h, C7_transposed_view c7_file none 1 c7_table h⟩

/-- C2 (amended): with the mandatory 256 centers, every successful training run
of `generate_pq_pivots` writes a file that `load_pq_centroid_bin` (expected
chunk count `M`, or `0` to infer) loads back, reproducing the trained pivots,
mean and chunk offsets exactly and recomputing the transposed view. -/
theorem C2_pivot_roundtrip (km : Nat → List ℚ → List ℚ) (passed : List ℚ)
    (num_train dim M nchunks : Nat) (mzm : Bool)
    (hM : 1 ≤ M) (hMD : M ≤ dim) (hn : nchunks = M ∨ nchunks = 0) :
    ∃ O C μ f,
      C = assemble_pivots km
            (center_train_data (trainer_train_data passed num_train dim)
              num_train dim mzm) O num_train dim 256 M
      ∧ μ = compute_centroid (trainer_train_data passed num_train dim)
              num_train dim mzm
      ∧ generate_pq_pivots km passed num_train dim 256 M none mzm = (0, some f)
      ∧ load_pq_centroid_bin f none nchunks
          = some ⟨dim, M, C, transpose_tables dim C, O, μ, none⟩ := by
  obtain ⟨O, _hO, hlen, hgen⟩ :=
    generate_pq_pivots_success km passed num_train dim 256 M mzm hM hMD
  refine ⟨O, _, _, _, rfl, rfl, hgen, ?_⟩
  rw [write_pivot_file_eq]
  exact load_four_entry_file _ _ _ _ _ _ O dim M nchunks hlen hn
    (by norm_num [METADATA_SIZE])
    (by simp only [METADATA_SIZE, blobBytes]; omega)
    (by simp only [METADATA_SIZE, blobBytes]; omega)

theorem C2_pivot_roundtrip_witness :
    ((1 : Nat) ≤ 1 ∧ (1 : Nat) ≤ 1 ∧ ((1 : Nat) = 1 ∨ (1 : Nat) = 0))
    ∧ ∃ O C μ f,
      C = assemble_pivots (fun _ _ => [])
            (center_train_data (trainer_train_data [] 0 1) 0 1 false)
            O 0 1 256 1
      ∧ μ = compute_centroid (trainer_train_data [] 0 1) 0 1 false
      ∧ generate_pq_pivots (fun _ _ => []) [] 0 1 256 1 none false = (0, some f)
      ∧ load_pq_centroid_bin f none 1
          = some ⟨1, 1, C, transpose_tables 1 C, O, μ, none⟩ :=
  ⟨⟨le_refl 1, le_refl 1, Or.inl rfl⟩,
   C2_pivot_roundtrip (fun _ _ => []) [] 0 1 1 1 false (le_refl 1) (le_refl 1)
     (Or.inl rfl)⟩

theorem C2_nonstandard_centers_counterexample :
    (generate_pq_pivots (fun _ _ => []) [0] 1 1 16 1 none false).1 = 0
    ∧ (generate_pq_pivots (fun _ _ => []) [0] 1 1 16 1 none false).2.map
        (fun f => load_pq_centroid_bin f none 1) = some none := by
  constructor
  · decide
  · decide

/-- C5 (amended): `generate_pq_pivots` rejects `M > dim` with return value `-1`
and, when a pivot file already exists whose blob at `METADATA_SIZE` matches
`(num_centers, dim)`, skips training, leaves the file unwritten and also
returns `-1` — the skip sentinel coincides with the error value, so the two
outcomes are not distinguishable from the return values. -/
theorem C5_error_and_skip_indistinguishable
    (km1 km2 : Nat → List ℚ → List ℚ) (p1 p2 : List ℚ)
    (nt1 nt2 d1 d2 K1 K2 M1 M2 : Nat) (mzm1 mzm2 : Bool)
    (ex2 : PQPivotsFile) (payload : List ℚ)
    (h1 : M1 > d1)
    (h2 : ¬ M2 > d2)
    (h3 : ex2.lookup METADATA_SIZE = some (.f32blob K2 d2 payload)) :
    generate_pq_pivots km1 p1 nt1 d1 K1 M1 none mzm1 = (-1, none)
    ∧ generate_pq_pivots km2 p2 nt2 d2 K2 M2 (some ex2) mzm2 = (-1, none) := by
  constructor
  · rw [generate_pq_pivots, if_pos h1]
  · simp [generate_pq_pivots, h2, h3]

theorem C5_error_and_skip_indistinguishable_witness :
    ((3 : Nat) > 2 ∧ ¬ (1 : Nat) > 1
      ∧ List.lookup METADATA_SIZE [(METADATA_SIZE, BinBlob.f32blob 256 1 [0])]
          = some (BinBlob.f32blob 256 1 [0]))
    ∧ generate_pq_pivots (fun _ _ => []) [] 0 2 256 3 none false = (-1, none)
    ∧ generate_pq_pivots (fun _ _ => []) [0] 1 1 256 1
        (some [(METADATA_SIZE, BinBlob.f32blob 256 1 [0])]) false = (-1, none) :=
  ⟨⟨by decide, by decide, by decide⟩,
   C5_error_and_skip_indistinguishable (fun _ _ => []) (fun _ _ => []) [] [0]
     0 1 2 1 256 256 3 1 false false
     [(METADATA_SIZE, BinBlob.f32blob 256 1 [0])] [0]
     (by decide) (by decide) (by decide)⟩

theorem C5_skip_counterexample :
    generate_pq_pivots (fun _ _ => []) [] 0 2 256 3 none false
      = generate_pq_pivots (fun _ _ => []) [0] 1 1 256 1
          (some [(METADATA_SIZE, BinBlob.f32blob 256 1 [0])]) false := by
  decide

/-- C6 (amended): for every well-formed legacy 5-entry pivot file,
`load_pq_centroid_bin` accepts it, reading the chunk-offset block from offset
entry 3; but the encoder `generate_pq_data_from_pivots` requires exactly 4
offset entries and rejects every such file. -/
theorem C6_legacy_offsets (f : PQPivotsFile) (offs : List Nat)
    (nc0 dim M K npq : Nat) (tables centroid : List ℚ)
    (chunk_offsets : List Nat) (uopq : Bool)
    (h0 : readU64 f 0 = some (5, nc0, offs))
    (h1 : readF32 f (offs.getD 0 0) = some (256, dim, tables))
    (h2 : readF32 f (offs.getD 1 0) = some (dim, 1, centroid))
    (h3 : readU32 f (offs.getD 3 0) = some (M + 1, 1, chunk_offsets)) :
    load_pq_centroid_bin f none M
      = some ⟨dim, M, tables, transpose_tables dim tables, chunk_offsets,
          centroid, none⟩
    ∧ generate_pq_data_from_pivots_load f none K npq dim uopq = none := by
  simp only [List.getD_eq_getElem?_getD] at h1 h2 h3
  constructor
  · simp [load_pq_centroid_bin, h0, h1, h2, h3, NUM_PQ_CENTROIDS]
  · simp [generate_pq_data_from_pivots_load, h0]

theorem C6_legacy_offsets_witness :
    (readU64 c6_file 0 = some (5, 1, [50, 60, 70, 80, 90])
     ∧ readF32 c6_file 50 = some (256, 1, c7_tables)
     ∧ readF32 c6_file 60 = some (1, 1, [0])
     ∧ readU32 c6_file 80 = some (2, 1, [0, 1]))
    ∧ load_pq_centroid_bin c6_file none 1
        = some ⟨1, 1, c7_tables, transpose_tables 1 c7_tables, [0, 1], [0],
            none⟩
    ∧ generate_pq_data_from_pivots_load c6_file none 256 1 1 false = none :=
  ⟨⟨by decide, by decide, by decide, by decide⟩,
   C6_legacy_offsets c6_file [50, 60, 70, 80, 90] 1 1 1 256 1 c7_tables [0]
     [0, 1] false (by decide) (by decide) (by decide) (by decide)⟩

theorem C6_encoder_rejects_legacy_counterexample :
    (∃ t, load_pq_centroid_bin c6_file none 1 = some t)
    ∧ generate_pq_data_from_pivots_load c6_file none 256 1 1 false = none := by
  constructor
  · exact ⟨⟨1, 1, c7_tables, transpose_tables 1 c7_tables, [0, 1], [0], none⟩,
      by decide⟩
  · decide

theorem getD_take_of_lt (l : List ℚ) (k i : Nat) (h : i < k) :
    (l.take k).getD i 0 = l.getD i 0 := by
  rw [List.getD_eq_getElem?_getD, List.getD_eq_getElem?_getD,
    List.getElem?_take, if_pos h]

/-- C9: neither trainer modifies the caller's training array — after the
copy-and-center phases of `generate_pq_pivots` and `generate_opq_pivots` the
`passed_train_data` buffer holds exactly its initial values (both trainers
write only their private copy), and the copy-verification loop finds zero
mismatches. -/
theorem C9_caller_buffer_unchanged (m : TrainerMem) (num_train dim : Nat)
    (mzm : Bool) :
    (generate_pq_pivots_mem m num_train dim mzm).passed_train_data
      = m.passed_train_data
    ∧ (generate_opq_pivots_mem m num_train dim mzm).passed_train_data
      = m.passed_train_data
    ∧ copy_check_failures (trainer_copy m num_train dim) num_train dim = 0 := by
  refine ⟨rfl, rfl, ?_⟩
  rw [copy_check_failures, List.countP_eq_zero]
  intro p hp
  simp only [List.mem_flatMap, List.mem_map, List.mem_range] at hp
  obtain ⟨i, hi, j, hj, rfl⟩ := hp
  simp only [trainer_copy, decide_not, Bool.not_eq_true', decide_eq_false_iff_not,
    Decidable.not_not]
  have hlt : i * dim + j < num_train * dim := by
    calc i * dim + j < i * dim + dim := by omega
    _ = (i + 1) * dim := by ring
    _ ≤ num_train * dim := Nat.mul_le_mul_right dim hi
  rw [getD_take_of_lt _ _ _ hlt]

theorem io_n_iters_eq (n : Nat) : io_n_iters n = (n + 1023) / 1024 := by
  unfold io_n_iters ROUND_UP MAX_EVENTS
  rw [Nat.mul_div_cancel _ (by omega)]
  omega

theorem flatMap_congr_nat (l : List Nat) (f g : Nat → List Nat)
    (h : ∀ x ∈ l, f x = g x) : l.flatMap f = l.flatMap g := by
  induction l with
  | nil => rfl
  | cons a l ih =>
    rw [List.flatMap_cons, List.flatMap_cons, h a (by simp),
      ih (fun x hx => h x (by simp [hx]))]

theorem windows_cover_aux (k : Nat) : ∀ n, io_n_iters n = k →
    (List.range k).flatMap
      (fun it => List.range' (it * MAX_EVENTS) (io_window_ops n it))
      = List.range n := by
  induction k with
  | zero =>
    intro n hn
    rw [io_n_iters_eq] at hn
    have : n = 0 := by omega
    subst this
    rfl
  | succ k ih =>
    intro n hn
    rw [io_n_iters_eq] at hn
    have hlow : 1024 * k < n := by omega
    have hhigh : n ≤ 1024 * (k + 1) := by omega
    have hfirst : ∀ it ∈ List.range k,
        List.range' (it * MAX_EVENTS) (io_window_ops n it)
          = List.range' (it * MAX_EVENTS) (io_window_ops (1024 * k) it) := by
      intro it hit
      rw [List.mem_range] at hit
      have h1 : io_window_ops n it = 1024 := by
        unfold io_window_ops MAX_EVENTS
        have : it + 1 ≤ k := hit
        have h2 : 1024 * (it + 1) ≤ 1024 * k := Nat.mul_le_mul_left 1024 this
        omega
      have h2 : io_window_ops (1024 * k) it = 1024 := by
        unfold io_window_ops MAX_EVENTS
        have : it + 1 ≤ k := hit
        have h2 : 1024 * (it + 1) ≤ 1024 * k := Nat.mul_le_mul_left 1024 this
        omega
      rw [h1, h2]
    have hik : io_n_iters (1024 * k) = k := by
      rw [io_n_iters_eq]; omega
    have hlast : io_window_ops n k = n - 1024 * k := by
      unfold io_window_ops MAX_EVENTS
      omega
    rw [List.range_succ k, List.flatMap_append,
      flatMap_congr_nat _ _ _ hfirst, ih (1024 * k) hik]
    simp only [List.flatMap_cons, List.flatMap_nil, List.append_nil, hlast]
    rw [List.range_eq_range', List.range_eq_range']
    have ha := List.range'_append 0 (1024 * k) (n - 1024 * k) 1
    simp only [Nat.one_mul, Nat.zero_add] at ha
    rw [show k * MAX_EVENTS = 1024 * k by unfold MAX_EVENTS; ring, ha]
    congr 1
    omega

theorem windows_cover (n : Nat) :
    (List.range (io_n_iters n)).flatMap
      (fun it => List.range' (it * MAX_EVENTS) (io_window_ops n it))
      = List.range n :=
  windows_cover_aux (io_n_iters n) n rfl

/-- C8: `execute_io` splits a batch of `n` read requests into consecutive
windows of at most `MAX_EVENTS = 1024` requests processed in order (the
windows' ranges concatenate to `0, …, n-1`); within a window, each `io_submit`
call requests exactly the `n_ops - num_submitted` remaining descriptors at
offset `num_submitted`; an EINTR response repeats the call without consuming
the retry budget; a partial total re-submits the remainder, charging the
10-attempt budget and failing fatally once it is exceeded; any other negative
response is immediately fatal; `io_getevents` mirrors the EINTR protocol. -/
theorem C8_reader_windows_and_retries :
    (∀ n, (List.range (io_n_iters n)).flatMap
        (fun it => List.range' (it * MAX_EVENTS) (io_window_ops n it))
        = List.range n)
    ∧ (∀ n it, io_window_ops n it ≤ MAX_EVENTS)
    ∧ (∀ b n s sr rest, submit_window b n s sr ((-EINTR) :: rest)
        = ((submit_window b n s sr rest).1,
           (n - s, s) :: (submit_window b n s sr rest).2))
    ∧ (∀ b n s sr (r : Int) rest, 0 ≤ r → s + r.toNat < n → sr + 1 ≤ b →
        submit_window b n s sr (r :: rest)
        = ((submit_window b n (s + r.toNat) (sr + 1) rest).1,
           (n - s, s) :: (submit_window b n (s + r.toNat) (sr + 1) rest).2))
    ∧ (∀ b n s sr (r : Int) rest, 0 ≤ r → s + r.toNat < n → ¬ sr + 1 ≤ b →
        submit_window b n s sr (r :: rest)
          = (.fatal_retries, [(n - s, s)]))
    ∧ (∀ b n s sr (r : Int) rest, r < 0 → ¬ -r = EINTR →
        submit_window b n s sr (r :: rest)
          = (.fatal_errno (-r), [(n - s, s)]))
    ∧ (∀ b n s sr (r : Int) rest, 0 ≤ r → n ≤ s + r.toNat →
        submit_window b n s sr (r :: rest) = (.done rest, [(n - s, s)]))
    ∧ (∀ b n s sr rest, getevents_window b n s sr ((-EINTR) :: rest)
        = ((getevents_window b n s sr rest).1,
           (n - s, s) :: (getevents_window b n s sr rest).2)) := by
  refine ⟨windows_cover, ?_, ?_, ?_, ?_, ?_, ?_, ?_⟩
  · intro n it
    exact Nat.min_le_right _ _
  · intro b n s sr rest
    simp only [submit_window, EINTR]
    norm_num
  · intro b n s sr r rest h0 h1 h2
    simp only [submit_window]
    rw [if_neg (by omega), if_pos h1, if_pos h2]
  · intro b n s sr r rest h0 h1 h2
    simp only [submit_window]
    rw [if_neg (by omega), if_pos h1, if_neg h2]
  · intro b n s sr r rest h0 h1
    simp only [submit_window]
    rw [if_pos h0, if_pos h1]
  · intro b n s sr r rest h0 h1
    simp only [submit_window]
    rw [if_neg (by omega), if_neg (by omega)]
  · intro b n s sr rest
    simp only [getevents_window, EINTR]
    norm_num

theorem C8_reader_windows_and_retries_witness :
    ((0 : Int) ≤ 2 ∧ 0 + (2 : Int).toNat < 3 ∧ 0 + 1 ≤ 10
      ∧ ¬ 0 + 1 ≤ 0 ∧ (-13 : Int) < 0 ∧ ¬ -(-13 : Int) = EINTR
      ∧ 3 ≤ 0 + (3 : Int).toNat)
    ∧ submit_window 10 3 0 0 [2, 1]
        = ((submit_window 10 3 2 1 [1]).1,
           (3, 0) :: (submit_window 10 3 2 1 [1]).2)
    ∧ submit_window 0 3 0 0 [0] = (.fatal_retries, [(3, 0)])
    ∧ submit_window 10 3 0 0 [-13] = (.fatal_errno 13, [(3, 0)])
    ∧ submit_window 10 3 0 0 [3, 5] = (.done [5], [(3, 0)]) :=
  ⟨⟨by decide, by decide, by decide, by decide, by decide, by decide,
    by decide⟩,
   C8_reader_windows_and_retries.2.2.2.1 10 3 0 0 2 [1] (by decide) (by decide)
     (by decide),
   C8_reader_windows_and_retries.2.2.2.2.1 0 3 0 0 0 [] (by decide) (by decide)
     (by decide),
   C8_reader_windows_and_retries.2.2.2.2.2.1 10 3 0 0 (-13) [] (by decide)
     (by decide),
   C8_reader_windows_and_retries.2.2.2.2.2.2.1 10 3 0 0 3 [5] (by decide)
     (by decide)⟩
